import Mathlib

/-!
# campd-docs: address resolution and link rewriting (`src/app.js`)

A shallow embedding of the functions of `src/app.js` that decide addresses:
`getPathFromHash`, `parseRoute`, `sanitizePath`, `pathToFile`,
`resolveRelativeLink`, `slugId`, and the pure cores of `wrapContentBlocks` and
`updateContent` (which blocks are built, which listener an anchor gets).

JavaScript strings are modelled as lists of characters (`Str`).  Every regular
expression of the source is translated into a small recursive function whose
doc comment quotes the expression it stands for.
-/

namespace CampdDocs

/-- A JavaScript string, as the list of its characters. -/
abbrev Str := List Char

/-- The constant `DEFAULT_PATH = "index"` (app.js line 5). -/
def DEFAULT_PATH : Str := "index".toList

/-- JavaScript's `a || b` on strings: the empty string is the only falsy one. -/
def orElse (a b : Str) : Str :=
  if a.isEmpty then b else a

/-- `String.prototype.split(sep)` for a one-character separator: the pieces
between the separators, empty pieces included; `"".split("/")` is `[""]`. -/
def split (sep : Char) : Str → List Str
  | [] => [[]]
  | c :: cs =>
    if c = sep then [] :: split sep cs
    else
      match split sep cs with
      | [] => [[c]]
      | seg :: rest => (c :: seg) :: rest

/-- `Array.prototype.join(sep)` on an array of strings. -/
def join (sep : Str) : List Str → Str
  | [] => []
  | [x] => x
  | x :: y :: rest => x ++ sep ++ join sep (y :: rest)

/-- `.filter(Boolean)` on an array of strings: drops the empty strings. -/
def filterBoolean (parts : List Str) : List Str :=
  parts.filter (fun s => !s.isEmpty)

/-- `s.startsWith(p)`. -/
def startsWith (s p : Str) : Bool :=
  p.isPrefixOf s

/-- `s.endsWith(p)`. -/
def endsWith (s p : Str) : Bool :=
  p.isSuffixOf s

/-- The characters `String.prototype.trim` removes: ECMAScript `WhiteSpace`
and `LineTerminator`. -/
def isJsWhitespace (c : Char) : Bool :=
  c.toNat = 0x09 || c.toNat = 0x0A || c.toNat = 0x0B || c.toNat = 0x0C ||
  c.toNat = 0x0D || c.toNat = 0x20 || c.toNat = 0xA0 || c.toNat = 0x1680 ||
  (0x2000 ≤ c.toNat && c.toNat ≤ 0x200A) || c.toNat = 0x2028 ||
  c.toNat = 0x2029 || c.toNat = 0x202F || c.toNat = 0x205F ||
  c.toNat = 0x3000 || c.toNat = 0xFEFF

/-- `String.prototype.trim`. -/
def trim (s : Str) : Str :=
  (s.dropWhile isJsWhitespace).rdropWhile isJsWhitespace

/-- The replacement `.replace(/^\/+|\/+$/g, "")` (app.js line 10): the first
alternative matches the whole leading run of `/`, the second matches a run of
`/` only when it reaches the end of the string, so both runs are deleted. -/
def stripSlashRuns (s : Str) : Str :=
  (s.dropWhile (· == '/')).rdropWhile (· == '/')

/-- Address normalisation of `getPathFromHash` (app.js line 10), applied to the
address, that is the location hash after `.slice(1)`. -/
def normalizeAddress (address : Str) : Str :=
  orElse (trim (stripSlashRuns address)) DEFAULT_PATH

/-- The function `getPathFromHash` (app.js lines 8-11); `locationHash` stands
for `window.location.hash`. -/
def getPathFromHash (locationHash : Str) : Str :=
  normalizeAddress (locationHash.drop 1)

/-- The route objects `parseRoute` returns: `{ type: "landing" }` or
`{ type: "source", sourceId, docPath }`. -/
inductive Route where
  | landing : Route
  | source (sourceId docPath : Str) : Route
  deriving DecidableEq, Repr

/-- The function `parseRoute` (app.js lines 13-19). -/
def parseRoute (path : Str) : Route :=
  let parts := filterBoolean (split '/' path)
  if parts.head? = some "s".toList && decide (parts.length ≥ 2) then
    Route.source (parts.getD 1 []) (orElse (join "/".toList (parts.drop 2)) DEFAULT_PATH)
  else
    Route.landing

/-- Decoding an address: `parseRoute(getPathFromHash())` as in `loadPage`
(app.js lines 236-237), for the location hash `"#" + address`. -/
def decode (address : Str) : Route :=
  parseRoute (getPathFromHash ('#' :: address))

/-- The replacement `.replace(/\.\./g, "")` (app.js line 60): scanning from the
left, every two consecutive dots are deleted and the scan resumes after them. -/
def removeDotDot : Str → Str
  | [] => []
  | [c] => [c]
  | c :: d :: rest =>
    if c = '.' ∧ d = '.' then removeDotDot rest else c :: removeDotDot (d :: rest)

/-- The replacement `.replace(/\/+/g, "/")` (app.js line 61): every maximal run
of `/` becomes a single `/`. -/
def collapseSlashes : Str → Str
  | [] => []
  | [c] => [c]
  | c :: d :: rest =>
    if c = '/' ∧ d = '/' then collapseSlashes (d :: rest)
    else c :: collapseSlashes (d :: rest)

/-- The alternative `^\/` of the expression on app.js line 62: a `/` at the
start of the string is deleted. -/
def stripLeadingSlash : Str → Str
  | [] => []
  | c :: r => if c = '/' then r else c :: r

/-- The alternative `\/$` of the expression on app.js line 62: a `/` at the end
of the string is deleted. -/
def stripTrailingSlash (t : Str) : Str :=
  if t.getLast? = some '/' then t.dropLast else t

/-- The replacement `.replace(/^\/|\/$/g, "")` (app.js line 62): one `/` at the
start is deleted, and then one `/` at the end of what follows it (the global
scan resumes after the first match, so a lone `/` is matched once). -/
def stripOneSlash (s : Str) : Str :=
  stripTrailingSlash (stripLeadingSlash s)

/-- The character class `[a-zA-Z0-9/\-_.]` of app.js line 63. -/
def isAllowedChar (c : Char) : Bool :=
  ('a' ≤ c && c ≤ 'z') || ('A' ≤ c && c ≤ 'Z') || ('0' ≤ c && c ≤ '9') ||
  c = '/' || c = '-' || c = '_' || c = '.'

/-- The replacement `.replace(/[^a-zA-Z0-9/\-_.]/g, "")` (app.js line 63). -/
def removeDisallowed (s : Str) : Str :=
  s.filter isAllowedChar

/-- The function `sanitizePath` (app.js lines 58-64). -/
def sanitizePath (path : Str) : Str :=
  removeDisallowed (stripOneSlash (collapseSlashes (removeDotDot path)))

/-- The replacement `.replace(/\/[^/]*$/, "")` (app.js line 133): the match starts
at the last `/` and runs to the end; a string without `/` has no match and is
returned as it is. -/
def removeLastSegment (s : Str) : Str :=
  if '/' ∈ s then (s.rdropWhile (· != '/')).dropLast else s

/-- One iteration of the loop of app.js lines 136-139: `..` pops the last
accumulated segment (`pop` on an empty array does nothing), `.` is skipped and
any other segment is pushed. -/
def resolveStep (out : List Str) (s : Str) : List Str :=
  if s = "..".toList then out.dropLast
  else if s ≠ ".".toList then out ++ [s]
  else out

/-- The replacement `.replace(/\.md$/i, "")` (app.js line 140): a final `.md`, in
any letter case, is deleted. -/
def stripMdSuffix (s : Str) : Str :=
  match s.reverse with
  | d :: m :: p :: rest =>
    if (d = 'd' ∨ d = 'D') ∧ (m = 'm' ∨ m = 'M') ∧ p = '.' then rest.reverse else s
  | _ => s

/-- The function `resolveRelativeLink` (app.js lines 131-141). -/
def resolveRelativeLink (basePath href : Str) : Str :=
  if href.isEmpty || startsWith href "#".toList || startsWith href "http".toList
      || startsWith href "/".toList then href
  else
    let base := orElse (removeLastSegment basePath) []
    let segs := filterBoolean (split '/' (base ++ "/".toList ++ href))
    let out := segs.foldl resolveStep []
    orElse (stripMdSuffix (join "/".toList out)) DEFAULT_PATH

/-- JavaScript's `path || DEFAULT_PATH` for an argument that may be absent
(`undefined` or `null`): an absent and an empty string are both falsy. -/
def orDefault (path : Option Str) (dflt : Str) : Str :=
  match path with
  | none => dflt
  | some p => orElse p dflt

/-- The function `pathToFile` (app.js lines 66-69). -/
def pathToFile (path : Option Str) : Str :=
  let p := orElse (sanitizePath (orDefault path DEFAULT_PATH)) DEFAULT_PATH
  if endsWith p ".md".toList then p else p ++ ".md".toList

/-! ### Content segmentation (`wrapContentBlocks`) -/

/-- A top-level element of the rendered document: its `tagName`, and an `ident`
standing for the identity of the DOM node. -/
structure Node where
  tagName : Str
  ident : Nat
  deriving DecidableEq, Repr

/-- The level computed on app.js line 112:
`/^H([1-6])$/i.test(tagName) ? parseInt(tagName[1], 10) : 0`. -/
def headingLevel (tagName : Str) : Nat :=
  match tagName with
  | [h, d] =>
    if (h = 'H' ∨ h = 'h') ∧ '1' ≤ d ∧ d ≤ '6' then d.toNat - '0'.toNat else 0
  | _ => 0

/-- A `div` created on app.js lines 115-116 or 120-121: the `level` of its class
name `doc-block doc-block-<level>` and the children appended to it. -/
structure Block where
  level : Nat
  nodes : List Node
  deriving DecidableEq, Repr

/-- The variables of the loop of `wrapContentBlocks`: the blocks already appended
to `fragment` and the open `currentBlock` (`none` for `null`). -/
structure WrapState where
  fragment : List Block
  currentBlock : Option Block
  deriving DecidableEq, Repr

/-- The statement `if (currentBlock) fragment.appendChild(currentBlock)`
(app.js lines 114 and 126). -/
def flushBlock (st : WrapState) : List Block :=
  match st.currentBlock with
  | some b => st.fragment ++ [b]
  | none => st.fragment

/-- One iteration of the loop of app.js lines 111-125. -/
def wrapStep (st : WrapState) (child : Node) : WrapState :=
  let level := headingLevel child.tagName
  if level > 0 then
    { fragment := flushBlock st
      currentBlock := some { level := level, nodes := [child] } }
  else
    match st.currentBlock with
    | none => { fragment := st.fragment, currentBlock := some { level := 1, nodes := [child] } }
    | some b =>
      { fragment := st.fragment
        currentBlock := some { level := b.level, nodes := b.nodes ++ [child] } }

/-- The function `wrapContentBlocks` (app.js lines 106-129), as a function from
the list of top-level children to the list of blocks that replace them; an
element without children is left alone and has no blocks. -/
def wrapContentBlocks (children : List Node) : List Block :=
  if children.length = 0 then []
  else flushBlock (children.foldl wrapStep { fragment := [], currentBlock := none })

/-! ### Link rewriting (`updateContent`) -/

/-- The `context` argument of `updateContent`; each field may be absent. -/
structure Context where
  sourceId : Option Str
  docPath : Option Str
  deriving DecidableEq, Repr

/-- What `updateContent` does with one anchor (app.js lines 149-167): it adds no
listener, or the listener of lines 152-155, or the listener of lines 161-164;
`hash` is the value the listener assigns to `window.location.hash`. -/
inductive LinkHandler where
  | ordinary : LinkHandler
  | internal (hash : Str) : LinkHandler
  | sameSource (hash : Str) : LinkHandler
  deriving DecidableEq, Repr

/-- The body of the `forEach` of `updateContent` (app.js lines 147-167) for an
anchor with the given `href`; `context` is `none` when the argument is absent. -/
def anchorHandler (context : Option Context) (href : Str) : LinkHandler :=
  let sourceId := orDefault (context.bind (fun c => c.sourceId)) []
  let basePath := orDefault (context.bind (fun c => c.docPath)) DEFAULT_PATH
  if startsWith href "#/".toList then LinkHandler.internal (href.drop 1)
  else if !sourceId.isEmpty && !startsWith href "http".toList
      && !startsWith href "mailto:".toList then
    let resolved := resolveRelativeLink basePath href
    if !resolved.isEmpty && resolved ≠ href then
      LinkHandler.sameSource ("/s/".toList ++ sourceId ++ "/".toList ++ resolved)
    else LinkHandler.ordinary
  else LinkHandler.ordinary

/-- The listeners `updateContent` adds, one entry per anchor of the document. -/
def updateContent (context : Option Context) (hrefs : List Str) : List LinkHandler :=
  hrefs.map (anchorHandler context)

/-! ### Source ids (`slugId`) -/

/-- A registered source, as stored by the submit handler (app.js line 209). -/
structure Source where
  id : Str
  name : Str
  owner : Str
  repo : Str
  ref : Str
  subdir : Str
  token : Option Str
  deriving DecidableEq, Repr

/-- The character class `[a-z0-9]` of app.js line 50. -/
def isSlugChar (c : Char) : Bool :=
  ('a' ≤ c && c ≤ 'z') || ('0' ≤ c && c ≤ '9')

/-- The replacement `.replace(/[^a-z0-9]+/g, "-")` (app.js line 50): every
maximal run of characters outside `[a-z0-9]` becomes one `-`. -/
def replaceNonSlugRuns : Str → Str
  | [] => []
  | [c] => if isSlugChar c then [c] else ['-']
  | c :: d :: rest =>
    if isSlugChar c then c :: replaceNonSlugRuns (d :: rest)
    else if isSlugChar d then '-' :: replaceNonSlugRuns (d :: rest)
    else replaceNonSlugRuns (d :: rest)

/-- The replacement `.replace(/^-|-$/g, "")` (app.js line 50): one `-` at the
start is deleted, and then one `-` at the end of what follows it. -/
def stripOneDash (s : Str) : Str :=
  let t := match s with
    | [] => []
    | c :: r => if c = '-' then r else c :: r
  if t.getLast? = some '-' then t.dropLast else t

/-- The slug of app.js line 50.  `toLowerCase` stands for
`String.prototype.toLowerCase`, whose Unicode tables are not part of the
repository. -/
def slugOf (toLowerCase : Str → Str) (name owner repo : Str) : Str :=
  orElse (stripOneDash (replaceNonSlugRuns
    (toLowerCase (orElse name (owner ++ "/".toList ++ repo))))) "src".toList

/-- The loop of app.js line 54, `while (sources.some(s => s.id === id))
id = slug + (++n)`, run for at most `fuel` tests of the condition; `none` when
the fuel runs out.  The counter is a natural number; its decimal string is
`Nat.toDigits 10`. -/
def slugIdLoop (ids : List Str) (slug : Str) : Nat → Nat → Str → Option Str
  | 0, _, _ => none
  | fuel + 1, n, id =>
    if id ∈ ids then slugIdLoop ids slug fuel (n + 1) (slug ++ Nat.toDigits 10 (n + 1))
    else some id

/-- The function `slugId` (app.js lines 49-56); `sources` is what `getSources()`
returns. -/
def slugId (toLowerCase : Str → Str) (sources : List Source) (fuel : Nat)
    (name owner repo : Str) : Option Str :=
  let slug := slugOf toLowerCase name owner repo
  slugIdLoop (sources.map (fun s => s.id)) slug fuel 0 slug

/-- The registration of the submit handler (app.js lines 204-216) for an already
parsed repository URL: the new list of sources, or `none` when `slugId` runs out
of fuel; a source whose id is taken is not added (line 211). -/
def registerSource (toLowerCase : Str → Str) (sources : List Source) (fuel : Nat)
    (nameField owner repo ref subdir : Str) (token : Option Str) :
    Option (List Source) :=
  let name := trim (orElse nameField (owner ++ "/".toList ++ repo))
  match slugId toLowerCase sources fuel name owner repo with
  | none => none
  | some id =>
    if id ∈ sources.map (fun s => s.id) then some sources
    else some (sources ++ [{ id := id, name := name, owner := owner, repo := repo,
                             ref := ref, subdir := subdir, token := token }])

/-- Lower-casing of the ASCII letters, the part of `toLowerCase` used in the
examples. -/
def asciiToLowerCase (s : Str) : Str :=
  s.map Char.toLower

/-- The array `out` of `resolveRelativeLink` when the loop of app.js lines
136-139 has ended, for an href that is not returned unchanged. -/
def resolveSegments (basePath href : Str) : List Str :=
  (filterBoolean
    (split '/' (orElse (removeLastSegment basePath) [] ++ "/".toList ++ href))).foldl
    resolveStep []

/-! ## Vocabulary of the claims about `resolveRelativeLink` -/

/-- A plain path segment: non-empty, without `/`, and neither `.` nor `..`. -/
def PlainSegment (x : Str) : Prop :=
  x ≠ [] ∧ '/' ∉ x ∧ x ≠ ".".toList ∧ x ≠ "..".toList

instance (x : Str) : Decidable (PlainSegment x) := by
  unfold PlainSegment
  exact inferInstance

/-- The four spellings of the suffix `.md`. -/
def mdSuffixes : List Str :=
  [".md".toList, ".MD".toList, ".Md".toList, ".mD".toList]

/-- The string ends in `.md`, in some letter case. -/
def endsWithMd (s : Str) : Bool :=
  mdSuffixes.any (fun suf => endsWith s suf)

/-- The href prefix `../` repeated `n` times. -/
def parentPrefix : Nat → Str
  | 0 => []
  | n + 1 => "../".toList ++ parentPrefix n

/-- The href begins with a URL scheme in the sense of RFC 3986: a letter, then
letters, digits, `+`, `-` or `.`, then `:`. -/
def hasUrlScheme (href : Str) : Bool :=
  match href with
  | [] => false
  | c :: rest =>
    c.isAlpha &&
      (rest.dropWhile (fun d => d.isAlphanum || d = '+' || d = '-' || d = '.')).head?
        = some ':'

/-! ## Vocabulary of the claims about `wrapContentBlocks` -/

/-- The node is a heading `H1` to `H6`. -/
def isHeading (n : Node) : Bool :=
  decide (headingLevel n.tagName > 0)

/-- A block begins with a node, no later node of it is a heading, and its level
is the level of its first node when that is a heading and `1` otherwise. -/
def BlockShape (b : Block) : Prop :=
  ∃ first rest, b.nodes = first :: rest ∧ (∀ n ∈ rest, isHeading n = false) ∧
    b.level = if isHeading first then headingLevel first.tagName else 1

/-- The number of blocks claimed for a list of nodes: one per heading, and one
more when the list begins with a node that is not a heading. -/
def expectedBlockCount (children : List Node) : Nat :=
  children.countP isHeading +
    (match children.head? with
      | some n => if isHeading n then 0 else 1
      | none => 0)

/-- The invariant of the loop of `wrapContentBlocks` after the nodes `done`. -/
def WrapInv (done : List Node) (st : WrapState) : Prop :=
  ((flushBlock st).map Block.nodes).flatten = done ∧
  (st.currentBlock = none → st.fragment = []) ∧
  (∀ b ∈ flushBlock st, BlockShape b) ∧
  (flushBlock st).length = expectedBlockCount done ∧
  (∀ b ∈ (flushBlock st).tail, ∃ first, b.nodes.head? = some first ∧ isHeading first = true)

/-! ## Vocabulary of the claims about `slugId` -/

/-- The `k`-th id `slugId` tries: the bare slug, then the slug followed by the
decimal digits of `1`, `2`, ... -/
def slugCandidate (slug : Str) (k : Nat) : Str :=
  if k = 0 then slug else slug ++ Nat.toDigits 10 k

/-- The character class `[a-z0-9-]`. -/
def isIdChar (c : Char) : Bool :=
  ('a' ≤ c && c ≤ 'z') || ('0' ≤ c && c ≤ '9') || c = '-'

/-! ## Vocabulary of the claim about the address read back -/

/-- The characters a browser stores unchanged when a string is assigned to
`window.location.hash` and read back: the printable ASCII characters other than
the space, the double quote, `<`, `>` and the grave accent.  Every other
character is percent-encoded (or, for a tab or a line break, removed) by the
browser, so a hash made of these characters only reads back as it was
written. -/
def isFragmentSafe (c : Char) : Bool :=
  decide (0x21 ≤ c.toNat) && decide (c.toNat ≤ 0x7E) && decide (c.toNat ≠ 0x22) &&
  decide (c.toNat ≠ 0x3C) && decide (c.toNat ≠ 0x3E) && decide (c.toNat ≠ 0x60)

/-! ## Vocabulary for `sanitizePath` -/

/-- No two consecutive dots occur in the string. -/
def NoDotDot (s : Str) : Prop :=
  List.Chain' (fun a b => ¬ (a = '.' ∧ b = '.')) s

/-- No two consecutive slashes occur in the string. -/
def NoSlashSlash (s : Str) : Prop :=
  List.Chain' (fun a b => ¬ (a = '/' ∧ b = '/')) s

/-! ## Basic facts about `split`, `join` and `filterBoolean` -/

theorem split_ne_nil (sep : Char) (s : Str) : split sep s ≠ [] := by
  induction s with
  | nil => simp [split]
  | cons c cs ih =>
    unfold split
    split_ifs
    · simp
    · cases h : split sep cs with
      | nil => exact absurd h ih
      | cons seg rest => simp

theorem split_cons_sep (sep : Char) (s : Str) : split sep (sep :: s) = [] :: split sep s := by
  rw [split]; simp

theorem split_of_not_mem (sep : Char) (s : Str) (h : sep ∉ s) : split sep s = [s] := by
  induction s with
  | nil => simp [split]
  | cons c cs ih =>
    have hc : c ≠ sep := fun e => h (by simp [e])
    have hcs : sep ∉ cs := fun e => h (by simp [e])
    rw [split, if_neg hc, ih hcs]

theorem split_append_sep (sep : Char) (a b : Str) :
    split sep (a ++ sep :: b) = split sep a ++ split sep b := by
  induction a with
  | nil => simp [split]
  | cons c cs ih =>
    by_cases hc : c = sep
    · subst hc
      simp [split_cons_sep, ih]
    · rw [List.cons_append, split, if_neg hc, ih, split, if_neg hc]
      cases h : split sep cs with
      | nil => exact absurd h (split_ne_nil sep cs)
      | cons seg rest => simp

theorem not_mem_of_mem_split (sep : Char) (s seg : Str) (h : seg ∈ split sep s) :
    sep ∉ seg := by
  induction s generalizing seg with
  | nil =>
    simp [split] at h
    simp [h]
  | cons c cs ih =>
    by_cases hc : c = sep
    · subst hc
      rw [split_cons_sep] at h
      rcases List.mem_cons.mp h with rfl | h
      · simp
      · exact ih seg h
    · rw [split, if_neg hc] at h
      cases hs : split sep cs with
      | nil => exact absurd hs (split_ne_nil sep cs)
      | cons seg0 rest =>
        rw [hs] at h
        simp only [List.mem_cons] at h
        rcases h with rfl | h
        · have h0 : sep ∉ seg0 := ih seg0 (by simp [hs])
          intro hm
          rcases List.mem_cons.mp hm with e | e
          · exact hc e.symm
          · exact h0 e
        · exact ih seg (by simp [hs, h])

theorem mem_filterBoolean (l : List Str) (s : Str) :
    s ∈ filterBoolean l ↔ s ∈ l ∧ s ≠ [] := by
  simp [filterBoolean]

theorem filterBoolean_append (l₁ l₂ : List Str) :
    filterBoolean (l₁ ++ l₂) = filterBoolean l₁ ++ filterBoolean l₂ := by
  simp [filterBoolean]

theorem filterBoolean_eq_self (l : List Str) (h : ∀ s ∈ l, s ≠ []) : filterBoolean l = l := by
  unfold filterBoolean
  rw [List.filter_eq_self]
  intro s hs
  simpa using h s hs

theorem join_cons_cons (sep x y : Str) (rest : List Str) :
    join sep (x :: y :: rest) = x ++ sep ++ join sep (y :: rest) := rfl

theorem join_ne_nil (sep : Str) (l : List Str) (hl : l ≠ []) (h : ∀ s ∈ l, s ≠ []) :
    join sep l ≠ [] := by
  match l, hl, h with
  | [x], _, h => simpa [join] using h x (by simp)
  | x :: y :: rest, _, h =>
    rw [join_cons_cons]
    have hx : x ≠ [] := h x (by simp)
    simp [hx]

theorem head?_join (sep : Str) (x : Str) (rest : List Str) (hx : x ≠ []) :
    (join sep (x :: rest)).head? = x.head? := by
  cases x with
  | nil => exact absurd rfl hx
  | cons c cs =>
    cases rest with
    | nil => rfl
    | cons y r => rfl

theorem orElse_of_ne_nil (a b : Str) (h : a ≠ []) : orElse a b = a := by
  cases a with
  | nil => exact absurd rfl h
  | cons c cs => rfl

theorem orElse_nil (b : Str) : orElse [] b = b := rfl

/-- The segments `parseRoute` works on are non-empty and contain no `/`. -/
theorem segment_plain (path seg : Str) (h : seg ∈ filterBoolean (split '/' path)) :
    seg ≠ [] ∧ '/' ∉ seg := by
  rw [mem_filterBoolean] at h
  exact ⟨h.2, not_mem_of_mem_split '/' path seg h.1⟩

/-- The three shapes of the segment list decide the result of `parseRoute`. -/
theorem parseRoute_of_segments (path : Str) :
    (filterBoolean (split '/' path) = [] → parseRoute path = Route.landing) ∧
    (∀ a, filterBoolean (split '/' path) = [a] → parseRoute path = Route.landing) ∧
    (∀ a b rest, filterBoolean (split '/' path) = a :: b :: rest →
      parseRoute path =
        if a = "s".toList then
          Route.source b (if rest = [] then DEFAULT_PATH else join "/".toList rest)
        else Route.landing) := by
  refine ⟨fun h => ?_, fun a h => ?_, fun a b rest h => ?_⟩
  · simp [parseRoute, h]
  · simp [parseRoute, h]
  · have hne : ∀ s ∈ rest, s ≠ [] := fun s hs =>
      (segment_plain path s (by rw [h]; simp [hs])).1
    unfold parseRoute
    simp only [h]
    by_cases ha : a = "s".toList
    · subst ha
      by_cases hr : rest = []
      · subst hr
        simp [join, orElse_nil]
      · simp [hr, orElse_of_ne_nil _ _ (join_ne_nil _ rest hr hne)]
    · have ha' : ¬ a = ['s'] := ha
      simp [ha']

/-- A document route comes from a segment list `"s", sourceId, rest...`. -/
theorem parseRoute_source_segments (path sourceId docPath : Str)
    (h : parseRoute path = Route.source sourceId docPath) :
    ∃ rest, filterBoolean (split '/' path) = "s".toList :: sourceId :: rest ∧
      docPath = if rest = [] then DEFAULT_PATH else join "/".toList rest := by
  obtain ⟨h0, h1, h2⟩ := parseRoute_of_segments path
  cases hs : filterBoolean (split '/' path) with
  | nil =>
    rw [h0 hs] at h
    exact Route.noConfusion h
  | cons a l =>
    cases l with
    | nil =>
      rw [h1 a hs] at h
      exact Route.noConfusion h
    | cons b rest =>
      rw [h2 a b rest hs] at h
      by_cases ha : a = "s".toList
      · rw [if_pos ha] at h
        injection h with e1 e2
        exact ⟨rest, by rw [ha, e1], e2.symm⟩
      · rw [if_neg ha] at h
        exact Route.noConfusion h

/-! ## Facts used for `resolveRelativeLink` -/

theorem join_cons_char (sep : Str) (c : Char) (seg : Str) (rest : List Str) :
    join sep ((c :: seg) :: rest) = c :: join sep (seg :: rest) := by
  cases rest with
  | nil => rfl
  | cons y r => rfl

theorem join_split (sep : Char) (s : Str) : join [sep] (split sep s) = s := by
  induction s with
  | nil => rfl
  | cons c cs ih =>
    cases h : split sep cs with
    | nil => exact absurd h (split_ne_nil sep cs)
    | cons seg rest =>
      rw [h] at ih
      by_cases hc : c = sep
      · subst hc
        rw [split_cons_sep, h, join_cons_cons, ih]
        rfl
      · rw [split, if_neg hc, h]
        simp only
        rw [join_cons_char, ih]

theorem split_join (sep : Char) (l : List Str) (hl : l ≠ []) (h : ∀ s ∈ l, sep ∉ s) :
    split sep (join [sep] l) = l := by
  induction l with
  | nil => exact absurd rfl hl
  | cons x r ih =>
    cases r with
    | nil =>
      exact split_of_not_mem sep x (h x (by simp))
    | cons y r =>
      rw [join_cons_cons, List.append_assoc, List.singleton_append, split_append_sep,
        split_of_not_mem sep x (h x (by simp)),
        ih (by simp) (fun s hs => h s (List.mem_cons_of_mem _ hs))]
      rfl

theorem join_concat (sep : Str) (l : List Str) (a : Str) (hl : l ≠ []) :
    join sep (l ++ [a]) = join sep l ++ sep ++ a := by
  induction l with
  | nil => exact absurd rfl hl
  | cons x r ih =>
    cases r with
    | nil => rfl
    | cons y r =>
      rw [List.cons_append, List.cons_append, join_cons_cons, ← List.cons_append,
        ih (by simp), join_cons_cons]
      simp [List.append_assoc]

theorem join_concat_append (sep : Str) (l : List Str) (a b : Str) :
    join sep (l ++ [a ++ b]) = join sep (l ++ [a]) ++ b := by
  by_cases hl : l = []
  · subst hl
    rfl
  · rw [join_concat sep l _ hl, join_concat sep l _ hl]
    simp [List.append_assoc]

/-- Appending a separator-free string extends the last piece of `split`. -/
theorem split_append_of_not_mem (sep : Char) (a b : Str) (init : List Str) (y : Str)
    (hb : sep ∉ b) (ha : split sep a = init ++ [y]) :
    split sep (a ++ b) = init ++ [y ++ b] := by
  have hmem : ∀ s ∈ init ++ [y], sep ∉ s := fun s hs =>
    not_mem_of_mem_split sep a s (by rw [ha]; exact hs)
  have e : a ++ b = join [sep] (init ++ [y ++ b]) := by
    rw [join_concat_append, ← ha, join_split]
  rw [e]
  apply split_join
  · simp
  · intro s hs
    rcases List.mem_append.mp hs with hs | hs
    · exact hmem s (List.mem_append_left _ hs)
    · rw [List.mem_singleton] at hs
      subst hs
      intro hm
      rcases List.mem_append.mp hm with hm | hm
      · exact hmem y (by simp) hm
      · exact hb hm

theorem removeLastSegment_append (d name : Str) (h : '/' ∉ name) :
    removeLastSegment (d ++ '/' :: name) = d := by
  have hr : (d ++ '/' :: name).rdropWhile (· != '/') = d ++ ['/'] := by
    induction name using List.reverseRecOn with
    | nil => exact List.rdropWhile_concat_neg _ _ _ (by simp)
    | append_singleton n c ih =>
      have hc : c ≠ '/' := fun e => h (by simp [e])
      have hn : '/' ∉ n := fun e => h (by simp [e])
      have e : d ++ '/' :: (n ++ [c]) = (d ++ '/' :: n) ++ [c] := by simp
      rw [e, List.rdropWhile_concat_pos _ _ _ (by simpa using hc)]
      exact ih hn
  unfold removeLastSegment
  rw [if_pos (by simp), hr]
  simp

theorem split_parentPrefix (n : Nat) (x : Str) (hx : '/' ∉ x) :
    split '/' (parentPrefix n ++ x) = List.replicate n "..".toList ++ [x] := by
  induction n with
  | zero => simpa [parentPrefix] using split_of_not_mem '/' x hx
  | succ n ih =>
    have e : parentPrefix (n + 1) ++ x = "..".toList ++ '/' :: (parentPrefix n ++ x) := by
      simp [parentPrefix]
    rw [e, split_append_sep, ih, split_of_not_mem '/' "..".toList (by decide)]
    simp [List.replicate_succ]

theorem resolveStep_plain (out : List Str) (y : Str)
    (h1 : y ≠ ".".toList) (h2 : y ≠ "..".toList) : resolveStep out y = out ++ [y] := by
  unfold resolveStep
  rw [if_neg h2, if_pos h1]

theorem foldl_resolveStep_plain (out D : List Str) (h : ∀ s ∈ D, PlainSegment s) :
    D.foldl resolveStep out = out ++ D := by
  induction D generalizing out with
  | nil => simp
  | cons x r ih =>
    obtain ⟨-, -, h1, h2⟩ := h x (by simp)
    rw [List.foldl_cons, ih _ (fun s hs => h s (List.mem_cons_of_mem _ hs)),
      resolveStep_plain out x h1 h2]
    simp

theorem foldl_resolveStep_parent (out : List Str) (n : Nat) :
    (List.replicate n "..".toList).foldl resolveStep out = out.take (out.length - n) := by
  induction n generalizing out with
  | zero => simp
  | succ n ih =>
    rw [List.replicate_succ, List.foldl_cons, ih]
    have e : resolveStep out "..".toList = out.dropLast := by simp [resolveStep]
    rw [e, List.dropLast_eq_take, List.take_take, List.length_take]
    congr 1
    omega

/-- The test `endsWithMd`, read off the reversed string. -/
theorem endsWithMd_eq_reverse (s : Str) :
    endsWithMd s =
      match s.reverse with
      | d :: m :: p :: _ => decide ((d = 'd' ∨ d = 'D') ∧ (m = 'm' ∨ m = 'M') ∧ p = '.')
      | _ => false := by
  unfold endsWithMd mdSuffixes endsWith List.isSuffixOf
  generalize s.reverse = r
  rcases r with _ | ⟨d, _ | ⟨m, _ | ⟨p, rest⟩⟩⟩
  · simp [List.isPrefixOf]
  · simp [List.isPrefixOf]
  · simp [List.isPrefixOf]
  · simp only [List.any_cons, List.any_nil, Bool.or_false]
    have hb : ∀ a b : Char, (a == b) = decide (b = a) := by
      intro a b
      by_cases h : b = a
      · subst h
        simp
      · have h' : ¬ a = b := fun e => h e.symm
        simp [h, h']
    have e1 : (".md".toList.reverse.isPrefixOf (d :: m :: p :: rest))
        = decide (d = 'd' ∧ m = 'm' ∧ p = '.') := by
      simp [List.isPrefixOf, hb]
    have e2 : (".MD".toList.reverse.isPrefixOf (d :: m :: p :: rest))
        = decide (d = 'D' ∧ m = 'M' ∧ p = '.') := by
      simp [List.isPrefixOf, hb]
    have e3 : (".Md".toList.reverse.isPrefixOf (d :: m :: p :: rest))
        = decide (d = 'd' ∧ m = 'M' ∧ p = '.') := by
      simp [List.isPrefixOf, hb]
    have e4 : (".mD".toList.reverse.isPrefixOf (d :: m :: p :: rest))
        = decide (d = 'D' ∧ m = 'm' ∧ p = '.') := by
      simp [List.isPrefixOf, hb]
    rw [e1, e2, e3, e4]
    by_cases h1 : d = 'd' <;> by_cases h2 : d = 'D' <;> by_cases h3 : m = 'm' <;>
      by_cases h4 : m = 'M' <;> by_cases h5 : p = '.' <;> simp [h1, h2, h3, h4, h5]

theorem stripMdSuffix_of_not_endsWithMd (s : Str) (h : endsWithMd s = false) :
    stripMdSuffix s = s := by
  rw [endsWithMd_eq_reverse] at h
  unfold stripMdSuffix
  split
  · rename_i d m p rest hr
    rw [hr] at h
    simp only [decide_eq_false_iff_not] at h
    rw [if_neg h]
  · rfl

theorem stripMdSuffix_append_suffix (s suf : Str) (h : suf ∈ mdSuffixes) :
    stripMdSuffix (s ++ suf) = s := by
  simp only [mdSuffixes, List.mem_cons, List.mem_singleton, List.not_mem_nil, or_false] at h
  rcases h with rfl | rfl | rfl | rfl <;> simp [stripMdSuffix]

theorem endsWithMd_append_slash (pre x : Str) :
    endsWithMd (pre ++ '/' :: x) = endsWithMd x := by
  rw [endsWithMd_eq_reverse, endsWithMd_eq_reverse, List.reverse_append, List.reverse_cons]
  generalize x.reverse = r
  rcases r with _ | ⟨d, _ | ⟨m, _ | ⟨p, rest⟩⟩⟩
  · rcases pre.reverse with _ | ⟨a, _ | ⟨b, t⟩⟩ <;> simp
  · rcases pre.reverse with _ | ⟨a, t⟩ <;> simp
  · simp
  · simp

/-- What the last line of `resolveRelativeLink` returns when the last accumulated
segment is non-empty and does not end in `.md` in any letter case. -/
theorem finish_of_not_endsWithMd (l : List Str) (x : Str) (hx : x ≠ [])
    (hmd : endsWithMd x = false) :
    orElse (stripMdSuffix (join "/".toList (l ++ [x]))) DEFAULT_PATH
      = join "/".toList (l ++ [x]) := by
  have hj : endsWithMd (join "/".toList (l ++ [x])) = false := by
    by_cases hl : l = []
    · subst hl
      exact hmd
    · rw [join_concat _ l x hl, List.append_assoc]
      exact (endsWithMd_append_slash _ x).trans hmd
  rw [stripMdSuffix_of_not_endsWithMd _ hj]
  apply orElse_of_ne_nil
  by_cases hl : l = []
  · subst hl
    exact hx
  · rw [join_concat _ l x hl]
    simp [hx]

theorem orElse_nil_right (a : Str) : orElse a [] = a := by
  cases a with
  | nil => rfl
  | cons c cs => rfl

/-- For an href that is not returned unchanged, `resolveRelativeLink` folds
`resolveStep` over the non-empty segments of `base/href` and finishes with the
suffix strip and the default. -/
theorem resolveRelativeLink_of_rewritable (p h : Str)
    (hc : (h.isEmpty || startsWith h "#".toList || startsWith h "http".toList
      || startsWith h "/".toList) = false) :
    resolveRelativeLink p h =
      orElse (stripMdSuffix (join "/".toList
        ((filterBoolean (split '/' (removeLastSegment p) ++ split '/' h)).foldl
          resolveStep []))) DEFAULT_PATH := by
  unfold resolveRelativeLink
  rw [hc]
  simp only [Bool.false_eq_true, if_false, orElse_nil_right]
  have e : removeLastSegment p ++ "/".toList ++ h = removeLastSegment p ++ '/' :: h := by
    simp
  rw [e, split_append_sep]

/-- The same, for a document in the directory `D`: the fold starts from the
segments of `D`. -/
theorem resolveRelativeLink_in_directory (D : List Str) (name h : Str)
    (hD : D ≠ []) (hDp : ∀ s ∈ D, PlainSegment s) (hname : '/' ∉ name)
    (hc : (h.isEmpty || startsWith h "#".toList || startsWith h "http".toList
      || startsWith h "/".toList) = false) :
    resolveRelativeLink (join "/".toList (D ++ [name])) h =
      orElse (stripMdSuffix (join "/".toList
        ((filterBoolean (split '/' h)).foldl resolveStep D))) DEFAULT_PATH := by
  have hb : removeLastSegment (join "/".toList (D ++ [name])) = join "/".toList D := by
    rw [join_concat _ D name hD, List.append_assoc]
    exact removeLastSegment_append _ name hname
  have hsj : split '/' (join "/".toList D) = D :=
    split_join '/' D hD (fun s hs => (hDp s hs).2.1)
  rw [resolveRelativeLink_of_rewritable _ _ hc, hb, hsj, filterBoolean_append,
    filterBoolean_eq_self D (fun s hs => (hDp s hs).1), List.foldl_append,
    foldl_resolveStep_plain [] D hDp, List.nil_append]

theorem rewritable_dot_slash (x : Str) :
    (("./".toList ++ x).isEmpty || startsWith ("./".toList ++ x) "#".toList
      || startsWith ("./".toList ++ x) "http".toList
      || startsWith ("./".toList ++ x) "/".toList) = false := by
  simp [startsWith, List.isPrefixOf]

theorem rewritable_parentPrefix (n : Nat) (x : Str) (hx : PlainSegment x)
    (hhash : startsWith x "#".toList = false) (hhttp : startsWith x "http".toList = false) :
    ((parentPrefix n ++ x).isEmpty || startsWith (parentPrefix n ++ x) "#".toList
      || startsWith (parentPrefix n ++ x) "http".toList
      || startsWith (parentPrefix n ++ x) "/".toList) = false := by
  cases n with
  | zero =>
    obtain ⟨h1, h2, -, -⟩ := hx
    cases x with
    | nil => exact absurd rfl h1
    | cons c cs =>
      have hc : c ≠ '/' := fun e => h2 (by simp [e])
      have hs : startsWith (c :: cs) "/".toList = false := by
        simp [startsWith, List.isPrefixOf, Ne.symm hc]
      simp only [parentPrefix, List.nil_append, hhash, hhttp, hs]
      rfl
  | succ n => simp [parentPrefix, startsWith, List.isPrefixOf]

theorem join_concat_ne_nil (sep : Str) (l : List Str) (x : Str) (hx : x ≠ []) :
    join sep (l ++ [x]) ≠ [] := by
  by_cases hl : l = []
  · subst hl
    exact hx
  · rw [join_concat _ l x hl]
    simp [hx]

theorem filterBoolean_concat (l : List Str) (x : Str) (hx : x ≠ []) :
    filterBoolean (l ++ [x]) = filterBoolean l ++ [x] := by
  rw [filterBoolean_append, filterBoolean_eq_self [x] (by simpa using hx)]

theorem mem_mdSuffixes (suf : Str) (h : suf ∈ mdSuffixes) : '/' ∉ suf ∧ suf.length = 3 := by
  simp only [mdSuffixes, List.mem_cons, List.mem_singleton, List.not_mem_nil, or_false] at h
  rcases h with rfl | rfl | rfl | rfl <;> decide

/-- Appending a `.md` suffix to a rewritable href leaves it rewritable. -/
theorem rewritable_append_suffix (h suf : Str) (hsuf : suf ∈ mdSuffixes)
    (hc : (h.isEmpty || startsWith h "#".toList || startsWith h "http".toList
      || startsWith h "/".toList) = false) :
    ((h ++ suf).isEmpty || startsWith (h ++ suf) "#".toList
      || startsWith (h ++ suf) "http".toList
      || startsWith (h ++ suf) "/".toList) = false := by
  simp only [mdSuffixes, List.mem_cons, List.mem_singleton, List.not_mem_nil, or_false] at hsuf
  rcases h with _ | ⟨a, _ | ⟨b, _ | ⟨c, _ | ⟨d, rest⟩⟩⟩⟩
  · simp at hc
  all_goals
    rcases hsuf with rfl | rfl | rfl | rfl <;>
      simp_all [startsWith, List.isPrefixOf] <;>
      exact hc.1.2

/-! ## The three structural passes of `sanitizePath`

The passes of lines 60-62 do establish what they are written for: their
result has no `..`, no `//`, and no `/` at either end.  On a string made of
allow-listed characters the last pass changes nothing, so there `sanitizePath`
is idempotent and its output is free of `..` segments and of a leading `/`.
-/

theorem removeDotDot_cons_of_ne (c : Char) (rest : Str) (hc : c ≠ '.') :
    removeDotDot (c :: rest) = c :: removeDotDot rest := by
  cases rest with
  | nil => rfl
  | cons d r => simp [removeDotDot, hc]

theorem removeDotDot_noDotDot (s : Str) : NoDotDot (removeDotDot s) := by
  induction s using removeDotDot.induct with
  | case1 => simp [removeDotDot, NoDotDot]
  | case2 c => simp [removeDotDot, NoDotDot]
  | case3 c d rest h ih =>
    rw [removeDotDot, if_pos h]
    exact ih
  | case4 c d rest h ih =>
    rw [removeDotDot, if_neg h]
    refine List.Chain'.cons' ih ?_
    intro y hy hcy
    have hd : d ≠ '.' := fun e => h ⟨hcy.1, e⟩
    rw [removeDotDot_cons_of_ne d rest hd] at hy
    simp only [List.head?_cons, Option.mem_def, Option.some.injEq] at hy
    exact hd (hy ▸ hcy.2)

theorem removeDotDot_eq_self (s : Str) (h : NoDotDot s) : removeDotDot s = s := by
  induction s using removeDotDot.induct with
  | case1 => rfl
  | case2 c => rfl
  | case3 c d rest hc ih =>
    exact absurd hc (List.chain'_cons.mp h).1
  | case4 c d rest hc ih =>
    rw [removeDotDot, if_neg hc, ih (List.chain'_cons.mp h).2]

theorem removeDotDot_sublist (s : Str) : (removeDotDot s).Sublist s := by
  induction s using removeDotDot.induct with
  | case1 => simp [removeDotDot]
  | case2 c => simp [removeDotDot]
  | case3 c d rest h ih =>
    rw [removeDotDot, if_pos h]
    exact (ih.cons d).cons c
  | case4 c d rest h ih =>
    rw [removeDotDot, if_neg h]
    exact ih.cons₂ c

theorem head?_collapseSlashes (s : Str) : (collapseSlashes s).head? = s.head? := by
  induction s using collapseSlashes.induct with
  | case1 => rfl
  | case2 c => rfl
  | case3 c d rest h ih =>
    rw [collapseSlashes, if_pos h, ih]
    simp [h.1, h.2]
  | case4 c d rest h ih =>
    rw [collapseSlashes, if_neg h]
    rfl

theorem collapseSlashes_noSlashSlash (s : Str) : NoSlashSlash (collapseSlashes s) := by
  induction s using collapseSlashes.induct with
  | case1 => simp [collapseSlashes, NoSlashSlash]
  | case2 c => simp [collapseSlashes, NoSlashSlash]
  | case3 c d rest h ih =>
    rw [collapseSlashes, if_pos h]
    exact ih
  | case4 c d rest h ih =>
    rw [collapseSlashes, if_neg h]
    refine List.Chain'.cons' ih ?_
    intro y hy
    rw [head?_collapseSlashes] at hy
    simp only [List.head?_cons, Option.mem_def, Option.some.injEq] at hy
    exact hy ▸ h

theorem collapseSlashes_noDotDot (s : Str) (hs : NoDotDot s) :
    NoDotDot (collapseSlashes s) := by
  induction s using collapseSlashes.induct with
  | case1 => exact hs
  | case2 c => exact hs
  | case3 c d rest h ih =>
    rw [collapseSlashes, if_pos h]
    exact ih (List.chain'_cons.mp hs).2
  | case4 c d rest h ih =>
    rw [collapseSlashes, if_neg h]
    refine List.Chain'.cons' (ih (List.chain'_cons.mp hs).2) ?_
    intro y hy
    rw [head?_collapseSlashes] at hy
    simp only [List.head?_cons, Option.mem_def, Option.some.injEq] at hy
    exact hy ▸ (List.chain'_cons.mp hs).1

theorem collapseSlashes_eq_self (s : Str) (h : NoSlashSlash s) : collapseSlashes s = s := by
  induction s using collapseSlashes.induct with
  | case1 => rfl
  | case2 c => rfl
  | case3 c d rest hc ih =>
    exact absurd hc (List.chain'_cons.mp h).1
  | case4 c d rest hc ih =>
    rw [collapseSlashes, if_neg hc, ih (List.chain'_cons.mp h).2]

theorem collapseSlashes_sublist (s : Str) : (collapseSlashes s).Sublist s := by
  induction s using collapseSlashes.induct with
  | case1 => simp [collapseSlashes]
  | case2 c => simp [collapseSlashes]
  | case3 c d rest h ih =>
    rw [collapseSlashes, if_pos h]
    exact ih.cons c
  | case4 c d rest h ih =>
    rw [collapseSlashes, if_neg h]
    exact ih.cons₂ c

theorem stripLeadingSlash_suffix (s : Str) : stripLeadingSlash s <:+ s := by
  cases s with
  | nil => exact List.suffix_refl _
  | cons c r =>
    simp only [stripLeadingSlash]
    split_ifs
    · exact List.suffix_cons c r
    · exact List.suffix_refl _

theorem stripTrailingSlash_isPrefix (t : Str) : stripTrailingSlash t <+: t := by
  unfold stripTrailingSlash
  split_ifs
  · exact List.dropLast_prefix t
  · exact List.prefix_refl _

theorem stripOneSlash_isInfix (s : Str) : stripOneSlash s <:+: s :=
  (stripTrailingSlash_isPrefix _).isInfix.trans (stripLeadingSlash_suffix s).isInfix

theorem head?_stripLeadingSlash (s : Str) (h : NoSlashSlash s) :
    (stripLeadingSlash s).head? ≠ some '/' := by
  cases s with
  | nil => simp [stripLeadingSlash]
  | cons c r =>
    simp only [stripLeadingSlash]
    split_ifs with hc
    · cases r with
      | nil => simp
      | cons d r =>
        have hcd := (List.chain'_cons.mp h).1
        intro e
        simp only [List.head?_cons, Option.some.injEq] at e
        exact hcd ⟨hc, e⟩
    · simpa using hc

theorem head?_stripTrailingSlash (t : Str) (h : t.head? ≠ some '/') :
    (stripTrailingSlash t).head? ≠ some '/' := by
  unfold stripTrailingSlash
  split_ifs
  · rw [List.head?_dropLast]
    split_ifs
    · exact h
    · simp
  · exact h

theorem getLast?_stripTrailingSlash (t : Str) (h : NoSlashSlash t) :
    (stripTrailingSlash t).getLast? ≠ some '/' := by
  unfold stripTrailingSlash
  split_ifs with ht
  · obtain ⟨u, rfl⟩ := List.getLast?_eq_some_iff.mp ht
    rw [List.dropLast_concat]
    intro hu
    obtain ⟨v, rfl⟩ := List.getLast?_eq_some_iff.mp hu
    have hs : ['/', '/'] <:+ v ++ ['/'] ++ ['/'] := ⟨v, by simp⟩
    have hc : List.Chain' (fun a b => ¬ (a = '/' ∧ b = '/')) ['/', '/'] := h.suffix hs
    exact (List.chain'_cons.mp hc).1 ⟨rfl, rfl⟩
  · exact ht

theorem stripOneSlash_eq_self (s : Str) (h1 : s.head? ≠ some '/')
    (h2 : s.getLast? ≠ some '/') : stripOneSlash s = s := by
  have e : stripLeadingSlash s = s := by
    cases s with
    | nil => rfl
    | cons c r =>
      have hc : c ≠ '/' := by simpa using h1
      simp [stripLeadingSlash, hc]
  unfold stripOneSlash
  rw [e]
  unfold stripTrailingSlash
  rw [if_neg h2]

/-- Whatever the input, the result of the passes of lines 60-62 has no `..`, no
`//`, and no `/` at its start or end. -/
theorem structural_passes_normal (s : Str) :
    NoDotDot (stripOneSlash (collapseSlashes (removeDotDot s))) ∧
    NoSlashSlash (stripOneSlash (collapseSlashes (removeDotDot s))) ∧
    (stripOneSlash (collapseSlashes (removeDotDot s))).head? ≠ some '/' ∧
    (stripOneSlash (collapseSlashes (removeDotDot s))).getLast? ≠ some '/' := by
  have hd : NoDotDot (collapseSlashes (removeDotDot s)) :=
    collapseSlashes_noDotDot _ (removeDotDot_noDotDot s)
  have hs : NoSlashSlash (collapseSlashes (removeDotDot s)) :=
    collapseSlashes_noSlashSlash _
  have hl : NoSlashSlash (stripLeadingSlash (collapseSlashes (removeDotDot s))) :=
    List.Chain'.suffix hs (stripLeadingSlash_suffix _)
  have hd' : NoDotDot (stripOneSlash (collapseSlashes (removeDotDot s))) :=
    List.Chain'.infix hd (stripOneSlash_isInfix _)
  have hs' : NoSlashSlash (stripOneSlash (collapseSlashes (removeDotDot s))) :=
    List.Chain'.infix hs (stripOneSlash_isInfix _)
  exact ⟨hd', hs', head?_stripTrailingSlash _ (head?_stripLeadingSlash _ hs),
    getLast?_stripTrailingSlash _ hl⟩

theorem isInfix_of_mem_split (sep : Char) (s seg : Str) (h : seg ∈ split sep s) : seg <:+: s := by
  have key : ∀ l : List Str, seg ∈ l → seg <:+: join [sep] l := by
    intro l
    induction l with
    | nil => intro hm; simp at hm
    | cons x r ih =>
      intro hm
      cases r with
      | nil =>
        rw [List.mem_singleton] at hm
        rw [hm]
        exact List.infix_refl _
      | cons y r =>
        rw [join_cons_cons]
        rcases List.mem_cons.mp hm with e | hm
        · rw [e, List.append_assoc]
          exact (List.prefix_append _ _).isInfix
        · exact (ih hm).trans (List.suffix_append _ _).isInfix
  have := key _ h
  rwa [join_split] at this

/-- On a string of allow-listed characters, `sanitizePath` is idempotent, and
its output has no `..` segment and no leading `/`. -/
theorem sanitizePath_of_allowed (s : Str) (h : ∀ c ∈ s, isAllowedChar c = true) :
    sanitizePath (sanitizePath s) = sanitizePath s ∧
    "..".toList ∉ split '/' (sanitizePath s) ∧
    startsWith (sanitizePath s) "/".toList = false := by
  obtain ⟨hd, hs, hh, hl⟩ := structural_passes_normal s
  have hsub : (stripOneSlash (collapseSlashes (removeDotDot s))).Sublist s :=
    ((stripOneSlash_isInfix _).sublist.trans (collapseSlashes_sublist _)).trans
      (removeDotDot_sublist s)
  have hf : sanitizePath s = stripOneSlash (collapseSlashes (removeDotDot s)) := by
    unfold sanitizePath removeDisallowed
    rw [List.filter_eq_self]
    exact fun c hc => h c (hsub.subset hc)
  rw [hf]
  generalize stripOneSlash (collapseSlashes (removeDotDot s)) = t at hd hs hh hl hsub
  refine ⟨?_, ?_, ?_⟩
  · unfold sanitizePath removeDisallowed
    rw [removeDotDot_eq_self t hd, collapseSlashes_eq_self t hs,
      stripOneSlash_eq_self t hh hl, List.filter_eq_self]
    exact fun c hc => h c (hsub.subset hc)
  · intro hm
    have hc : List.Chain' (fun a b => ¬ (a = '.' ∧ b = '.')) "..".toList :=
      List.Chain'.infix hd (isInfix_of_mem_split '/' t _ hm)
    exact (List.chain'_cons.mp hc).1 ⟨rfl, rfl⟩
  · cases t with
    | nil => rfl
    | cons c r =>
      have hc : c ≠ '/' := by simpa using hh
      simp [startsWith, List.isPrefixOf, Ne.symm hc]

/-- For a root-level document whose name is a plain segment, a plain link `x`
(not ending in `.md` in any letter case, not starting with `#` or `http`)
resolves below the document's own name. -/
theorem resolveRelativeLink_root (p x : Str) (hp : PlainSegment p) (hx : PlainSegment x)
    (hmd : endsWithMd x = false) (hhash : startsWith x "#".toList = false)
    (hhttp : startsWith x "http".toList = false) :
    resolveRelativeLink p x = p ++ "/".toList ++ x := by
  have hc := rewritable_parentPrefix 0 x hx hhash hhttp
  simp only [parentPrefix, List.nil_append] at hc
  have hb : removeLastSegment p = p := by
    unfold removeLastSegment
    rw [if_neg hp.2.1]
  have hf : filterBoolean ([p] ++ [x]) = [p] ++ [x] :=
    filterBoolean_eq_self _ (by
      intro s hs
      rcases List.mem_append.mp hs with hs | hs <;> rw [List.mem_singleton] at hs <;> rw [hs]
      · exact hp.1
      · exact hx.1)
  rw [resolveRelativeLink_of_rewritable p x hc, hb, split_of_not_mem '/' p hp.2.1,
    split_of_not_mem '/' x hx.2.1, hf, List.foldl_append, List.foldl_cons, List.foldl_nil,
    List.foldl_cons, List.foldl_nil, resolveStep_plain [] p hp.2.2.1 hp.2.2.2,
    resolveStep_plain _ x hx.2.2.1 hx.2.2.2, finish_of_not_endsWithMd _ x hx.1 hmd]
  rfl

/-! ## Root-level documents (C1) -/

/-- C1 (evaluation at the failing input): for the root-level document `index`
and the plain link `intro`, `resolveRelativeLink` returns `index/intro`, not
`intro`: `removeLastSegment` leaves a path without `/` unchanged, so the
document's own name stays in the resolved path. -/
theorem resolveRelativeLink_root_keeps_document_name :
    removeLastSegment "index".toList = "index".toList ∧
    resolveRelativeLink "index".toList "intro".toList = "index/intro".toList ∧
    resolveRelativeLink "index".toList "intro".toList ≠ "intro".toList := by
  decide

/-! ## `sanitizePath` on strings with characters outside the allow-list (C2, C3, C4) -/

/-- C2 (evaluation at the failing input): `sanitizePath` is not idempotent at
`".!."`: the first application gives `".."`, the second the empty string. -/
theorem sanitizePath_not_idempotent_at_dot_bang_dot :
    sanitizePath ".!.".toList = "..".toList ∧
    sanitizePath (sanitizePath ".!.".toList) = [] ∧
    sanitizePath (sanitizePath ".!.".toList) ≠ sanitizePath ".!.".toList := by
  decide

/-- C3 (evaluation at the failing input): `sanitizePath("a/.!./b")` is `a/../b`,
whose second `/`-delimited segment is `..`. -/
theorem sanitizePath_keeps_dotdot_segment :
    sanitizePath "a/.!./b".toList = "a/../b".toList ∧
    "..".toList ∈ split '/' (sanitizePath "a/.!./b".toList) := by
  decide

/-- C4 (evaluation at the failing input): `sanitizePath("!/etc")` is `/etc`,
which begins with `/`. -/
theorem sanitizePath_keeps_leading_slash :
    sanitizePath "!/etc".toList = "/etc".toList ∧
    startsWith (sanitizePath "!/etc".toList) "/".toList = true := by
  decide

/-! ## Decoding the default addresses (C5) -/

/-- C5 (counterexample): there is no source id for which the addresses `""`,
`"/"` and `"index"` all decode to the document route with docPath `index`. -/
theorem decode_default_addresses_not_document :
    ¬ ∃ sourceId : Str,
      decode "".toList = Route.source sourceId DEFAULT_PATH ∧
      decode "/".toList = Route.source sourceId DEFAULT_PATH ∧
      decode "index".toList = Route.source sourceId DEFAULT_PATH := by
  rintro ⟨sourceId, h, -, -⟩
  have h0 : decode "".toList = Route.landing := by decide
  rw [h0] at h
  exact Route.noConfusion h

/-- C5 (amended): the addresses `""`, `"/"` and `"index"` all normalise to the
default document name `index`, and all three decode to the same route, which
is the landing route. -/
theorem decode_default_addresses_landing :
    getPathFromHash "#".toList = DEFAULT_PATH ∧
    getPathFromHash "#/".toList = DEFAULT_PATH ∧
    getPathFromHash "#index".toList = DEFAULT_PATH ∧
    decode "".toList = Route.landing ∧
    decode "/".toList = Route.landing ∧
    decode "index".toList = Route.landing := by
  decide

/-! ## The shape of `parseRoute` (C6) -/

/-- C6: with `segs` the non-empty `/`-separated segments of the path,
`parseRoute` returns the document route `(sourceId, docPath)` exactly when
`segs` is `"s"`, then `sourceId`, then some `rest`, the `sourceId` being
non-empty and `docPath` being `rest` joined by `/`, or `index` when `rest` is
empty; it returns the landing route exactly when `segs` has no such shape.
In particular `s/foo` gives `(foo, index)` and `s/foo/bar/baz` gives
`(foo, bar/baz)`. -/
theorem parseRoute_document_iff (path : Str) :
    (∀ sourceId docPath, parseRoute path = Route.source sourceId docPath ↔
      ∃ rest, filterBoolean (split '/' path) = "s".toList :: sourceId :: rest ∧
        sourceId ≠ [] ∧
        docPath = if rest = [] then DEFAULT_PATH else join "/".toList rest) ∧
    (parseRoute path = Route.landing ↔
      ¬ ∃ sourceId rest, filterBoolean (split '/' path) = "s".toList :: sourceId :: rest) ∧
    parseRoute "s/foo".toList = Route.source "foo".toList "index".toList ∧
    parseRoute "s/foo/bar/baz".toList = Route.source "foo".toList "bar/baz".toList := by
  obtain ⟨h0, h1, h2⟩ := parseRoute_of_segments path
  refine ⟨fun sourceId docPath => ?_, ?_, by decide, by decide⟩
  · cases hs : filterBoolean (split '/' path) with
    | nil => simp [h0 hs]
    | cons a l =>
      cases l with
      | nil => simp [h1 a hs]
      | cons b rest =>
        have hb : b ≠ [] := (segment_plain path b (by rw [hs]; simp)).1
        rw [h2 a b rest hs]
        by_cases ha : a = "s".toList
        · subst ha
          rw [if_pos rfl]
          constructor
          · intro h
            injection h with e1 e2
            subst e1
            exact ⟨rest, rfl, hb, e2.symm⟩
          · rintro ⟨rest', e, -, hd⟩
            injection e with _ e
            injection e with e1 e2
            subst e1 e2
            rw [hd]
        · rw [if_neg ha]
          constructor
          · intro h
            exact Route.noConfusion h
          · rintro ⟨rest', e, -, -⟩
            injection e with e _
            exact absurd e ha
  · cases hs : filterBoolean (split '/' path) with
    | nil => simp [h0 hs]
    | cons a l =>
      cases l with
      | nil => simp [h1 a hs]
      | cons b rest =>
        rw [h2 a b rest hs]
        by_cases ha : a = "s".toList
        · subst ha
          rw [if_pos rfl]
          constructor
          · intro h
            exact Route.noConfusion h
          · intro h
            exact absurd ⟨b, rest, rfl⟩ h
        · rw [if_neg ha]
          constructor
          · rintro - ⟨sourceId, rest', e⟩
            injection e with e _
            exact absurd e ha
          · intro _
            rfl

/-! ## The docPath of a decoded route (C7) -/

/-- C7 (counterexample): it is not true that every decoded document route has a
docPath without a `..` segment and without a leading `/`: the address
`s/foo/../x` decodes to the docPath `../x`. -/
theorem decode_docPath_not_sanitized :
    ¬ ∀ address sourceId docPath, decode address = Route.source sourceId docPath →
      "..".toList ∉ split '/' docPath ∧ startsWith docPath "/".toList = false := by
  intro h
  have hd : decode "s/foo/../x".toList = Route.source "foo".toList "../x".toList := by decide
  exact absurd (h _ _ _ hd).1 (by decide)

/-- C7 (amended): whenever an address decodes to a document route, its docPath
is non-empty and does not begin with `/`. -/
theorem decode_docPath_no_leading_slash (address sourceId docPath : Str)
    (h : decode address = Route.source sourceId docPath) :
    docPath ≠ [] ∧ startsWith docPath "/".toList = false := by
  unfold decode at h
  generalize getPathFromHash ('#' :: address) = path at h
  obtain ⟨rest, hs, hd⟩ := parseRoute_source_segments path sourceId docPath h
  by_cases hr : rest = []
  · rw [if_pos hr] at hd
    subst hd
    decide
  · rw [if_neg hr] at hd
    have hplain : ∀ s ∈ rest, s ≠ [] ∧ '/' ∉ s := fun s hm =>
      segment_plain path s (by rw [hs]; simp [hm])
    have hne : docPath ≠ [] := by
      rw [hd]
      exact join_ne_nil _ rest hr (fun s hm => (hplain s hm).1)
    refine ⟨hne, ?_⟩
    cases rest with
    | nil => exact absurd rfl hr
    | cons x r =>
      obtain ⟨hx, hx'⟩ := hplain x (by simp)
      have hh : docPath.head? = x.head? := by rw [hd]; exact head?_join _ x r hx
      cases x with
      | nil => exact absurd rfl hx
      | cons c cs =>
        have hc : c ≠ '/' := fun e => hx' (by simp [e])
        cases docPath with
        | nil => exact absurd rfl hne
        | cons d ds =>
          simp only [List.head?_cons, Option.some.injEq] at hh
          subst hh
          simp [startsWith, List.isPrefixOf, Ne.symm hc]

/-- C7 (witness): the address `s/foo/../x` decodes to a document route, whose
docPath `../x` is non-empty and has no leading `/`. -/
theorem decode_docPath_no_leading_slash_witness :
    decode "s/foo/../x".toList = Route.source "foo".toList "../x".toList ∧
    ("../x".toList ≠ [] ∧ startsWith "../x".toList "/".toList = false) :=
  ⟨by decide, decode_docPath_no_leading_slash "s/foo/../x".toList "foo".toList "../x".toList
    (by decide)⟩

/-! ## Hrefs that are returned unchanged (C8) -/

/-- C8: an href that is empty, or begins with `#`, with `http` or with `/`, is
returned unchanged by `resolveRelativeLink`, whatever the current document
path is. -/
theorem resolveRelativeLink_unchanged (p h : Str)
    (hh : h = [] ∨ startsWith h "#".toList = true ∨ startsWith h "http".toList = true ∨
      startsWith h "/".toList = true) :
    resolveRelativeLink p h = h := by
  unfold resolveRelativeLink
  rcases hh with rfl | hh | hh | hh
  · simp
  all_goals rw [hh]; simp

/-- C8 (witness): `resolve("guide/setup", "http://example.com/x")` is the href
itself. -/
theorem resolveRelativeLink_unchanged_witness :
    resolveRelativeLink "guide/setup".toList "http://example.com/x".toList
      = "http://example.com/x".toList :=
  resolveRelativeLink_unchanged "guide/setup".toList "http://example.com/x".toList
    (Or.inr (Or.inr (Or.inl (by decide))))

/-! ## Relative links from a document in a directory (C9) -/

/-- C9 (counterexample): with "not ending in `.md`" read literally, the claim
fails: `a.MD` is a plain segment that does not end in `.md`, and
`resolve("guide/setup", "./a.MD")` is `guide/a`, not `guide/a.MD`. -/
theorem resolveRelativeLink_relative_fails_for_uppercase_md :
    ¬ ∀ (D : List Str) (name x : Str) (n : Nat),
      D ≠ [] → (∀ s ∈ D, PlainSegment s) → '/' ∉ name → PlainSegment x →
      endsWith x ".md".toList = false → startsWith x "#".toList = false →
      startsWith x "http".toList = false →
      resolveRelativeLink (join "/".toList (D ++ [name])) ("./".toList ++ x)
          = join "/".toList (D ++ [x]) ∧
      resolveRelativeLink (join "/".toList (D ++ [name])) (parentPrefix n ++ x)
          = join "/".toList (D.take (D.length - min n D.length) ++ [x]) := by
  intro h
  have h1 := (h ["guide".toList] "setup".toList "a.MD".toList 0 (by decide) (by decide)
    (by decide) (by decide) (by decide) (by decide) (by decide)).1
  revert h1
  decide

/-- C9 (amended): for a document `D/name`, with `D` a non-empty list of plain
segments and `name` free of `/`, and a plain target segment `x` that does not
end in `.md` in any letter case and does not start with `#` or `http`:
`resolve(D/name, "./" + x)` is `D/x`, and `resolve(D/name, "../" * n + x)` is
`D` without its last `min(n, |D|)` segments, followed by `x`. -/
theorem resolveRelativeLink_relative (D : List Str) (name x : Str) (n : Nat)
    (hD : D ≠ []) (hDp : ∀ s ∈ D, PlainSegment s) (hname : '/' ∉ name)
    (hx : PlainSegment x) (hmd : endsWithMd x = false)
    (hhash : startsWith x "#".toList = false)
    (hhttp : startsWith x "http".toList = false) :
    resolveRelativeLink (join "/".toList (D ++ [name])) ("./".toList ++ x)
        = join "/".toList (D ++ [x]) ∧
    resolveRelativeLink (join "/".toList (D ++ [name])) (parentPrefix n ++ x)
        = join "/".toList (D.take (D.length - min n D.length) ++ [x]) := by
  obtain ⟨hx0, hxs, hx1, hx2⟩ := hx
  constructor
  · have hs : split '/' ("./".toList ++ x) = [".".toList, x] := by
      have e : "./".toList ++ x = ".".toList ++ '/' :: x := rfl
      rw [e, split_append_sep, split_of_not_mem '/' x hxs]
      rfl
    have hf : filterBoolean [".".toList, x] = [".".toList, x] :=
      filterBoolean_eq_self _ (by
        intro s hs
        rcases List.mem_cons.mp hs with rfl | hs
        · decide
        · rw [List.mem_singleton] at hs
          rw [hs]
          exact hx0)
    have hstep : resolveStep D ".".toList = D := by
      unfold resolveStep
      rw [if_neg (by decide), if_neg (by simp)]
    rw [resolveRelativeLink_in_directory D name _ hD hDp hname (rewritable_dot_slash x),
      hs, hf, List.foldl_cons, List.foldl_cons, List.foldl_nil, hstep,
      resolveStep_plain D x hx1 hx2]
    exact finish_of_not_endsWithMd D x hx0 hmd
  · have hf : filterBoolean (List.replicate n "..".toList ++ [x])
        = List.replicate n "..".toList ++ [x] :=
      filterBoolean_eq_self _ (by
        intro s hs
        rcases List.mem_append.mp hs with hs | hs
        · rw [(List.mem_replicate.mp hs).2]
          decide
        · rw [List.mem_singleton] at hs
          rw [hs]
          exact hx0)
    have hm : D.length - min n D.length = D.length - n := by omega
    rw [resolveRelativeLink_in_directory D name _ hD hDp hname
        (rewritable_parentPrefix n x ⟨hx0, hxs, hx1, hx2⟩ hhash hhttp),
      split_parentPrefix n x hxs, hf, List.foldl_append, foldl_resolveStep_parent,
      List.foldl_cons, List.foldl_nil, resolveStep_plain _ x hx1 hx2, hm]
    exact finish_of_not_endsWithMd _ x hx0 hmd

/-- C9 (witness): `resolve("guide/setup", "./advanced")` is `guide/advanced` and
`resolve("guide/setup", "../intro")` is `intro`. -/
theorem resolveRelativeLink_relative_witness :
    resolveRelativeLink "guide/setup".toList "./advanced".toList = "guide/advanced".toList ∧
    resolveRelativeLink "guide/setup".toList "../intro".toList = "intro".toList :=
  ⟨(resolveRelativeLink_relative ["guide".toList] "setup".toList "advanced".toList 1
      (by decide) (by decide) (by decide) (by decide) (by decide) (by decide) (by decide)).1,
   (resolveRelativeLink_relative ["guide".toList] "setup".toList "intro".toList 1
      (by decide) (by decide) (by decide) (by decide) (by decide) (by decide) (by decide)).2⟩

/-! ## The resolved address namespace is suffix-free (C10) -/

/-- C10: for every current document path `p` and every href `h` that is
non-empty, does not start with `#`, `http` or `/`, and whose last
`/`-segment `y` is non-empty, is neither `.` nor `..` and does not end in
`.md` in any letter case, appending `.md`, `.MD`, `.Md` or `.mD` to `h` does
not change the result of `resolveRelativeLink`. -/
theorem resolveRelativeLink_md_suffix (p h y suf : Str)
    (hne : h ≠ []) (hhash : startsWith h "#".toList = false)
    (hhttp : startsWith h "http".toList = false)
    (hslash : startsWith h "/".toList = false)
    (hlast : (split '/' h).getLast? = some y)
    (hy0 : y ≠ []) (hy1 : y ≠ ".".toList) (hy2 : y ≠ "..".toList)
    (hmd : endsWithMd y = false) (hsuf : suf ∈ mdSuffixes) :
    resolveRelativeLink p (h ++ suf) = resolveRelativeLink p h := by
  have hc : (h.isEmpty || startsWith h "#".toList || startsWith h "http".toList
      || startsWith h "/".toList) = false := by
    rw [hhash, hhttp, hslash]
    cases h with
    | nil => exact absurd rfl hne
    | cons c cs => rfl
  obtain ⟨hsl, hlen⟩ := mem_mdSuffixes suf hsuf
  obtain ⟨init, hinit⟩ := List.getLast?_eq_some_iff.mp hlast
  have hys0 : y ++ suf ≠ [] := by simp [hy0]
  have hys1 : y ++ suf ≠ ".".toList := by
    intro e
    have := congrArg List.length e
    simp [hlen] at this
  have hys2 : y ++ suf ≠ "..".toList := by
    intro e
    have := congrArg List.length e
    simp [hlen] at this
  rw [resolveRelativeLink_of_rewritable p _ (rewritable_append_suffix h suf hsuf hc),
    resolveRelativeLink_of_rewritable p h hc,
    split_append_of_not_mem '/' h suf init y hsl hinit, hinit,
    ← List.append_assoc, ← List.append_assoc,
    filterBoolean_concat _ _ hys0, filterBoolean_concat _ _ hy0,
    List.foldl_append, List.foldl_append, List.foldl_cons, List.foldl_cons,
    List.foldl_nil, List.foldl_nil, resolveStep_plain _ _ hys1 hys2,
    resolveStep_plain _ _ hy1 hy2, join_concat_append,
    stripMdSuffix_append_suffix _ suf hsuf, finish_of_not_endsWithMd _ y hy0 hmd]
  exact orElse_of_ne_nil _ _ (join_concat_ne_nil _ _ y hy0)

/-- C10 (witness): from `guide/setup`, the hrefs `../api/intro.MD` and
`../api/intro` resolve to the same path. -/
theorem resolveRelativeLink_md_suffix_witness :
    resolveRelativeLink "guide/setup".toList ("../api/intro".toList ++ ".MD".toList)
      = resolveRelativeLink "guide/setup".toList "../api/intro".toList :=
  resolveRelativeLink_md_suffix "guide/setup".toList "../api/intro".toList "intro".toList
    ".MD".toList (by decide) (by decide) (by decide) (by decide) (by decide) (by decide)
    (by decide) (by decide) (by decide) (by decide)

/-! ## The loop invariant of `wrapContentBlocks` -/

theorem wrapInv_init : WrapInv [] { fragment := [], currentBlock := none } := by
  refine ⟨rfl, fun _ => rfl, ?_, rfl, ?_⟩
  · intro b hb
    simp [flushBlock] at hb
  · intro b hb
    simp [flushBlock] at hb

theorem expectedBlockCount_concat_heading (done : List Node) (x : Node)
    (hx : isHeading x = true) :
    expectedBlockCount (done ++ [x]) = expectedBlockCount done + 1 := by
  unfold expectedBlockCount
  cases done with
  | nil => simp [hx]
  | cons a l =>
    simp only [List.cons_append, List.head?_cons, List.countP_cons, List.countP_append,
      List.countP_nil, hx, if_true]
    omega

theorem expectedBlockCount_concat_other (done : List Node) (x : Node) (hd : done ≠ [])
    (hx : isHeading x = false) :
    expectedBlockCount (done ++ [x]) = expectedBlockCount done := by
  unfold expectedBlockCount
  cases done with
  | nil => exact absurd rfl hd
  | cons a l =>
    simp [List.countP_cons, List.countP_append, hx]

theorem wrapInv_step (done : List Node) (st : WrapState) (x : Node)
    (h : WrapInv done st) : WrapInv (done ++ [x]) (wrapStep st x) := by
  obtain ⟨h1, h2, h3, h4, h5⟩ := h
  by_cases hx : isHeading x = true
  · have hl : headingLevel x.tagName > 0 := by simpa [isHeading] using hx
    have e : flushBlock (wrapStep st x)
        = flushBlock st ++ [{ level := headingLevel x.tagName, nodes := [x] }] := by
      simp [wrapStep, hl, flushBlock]
    have ec : (wrapStep st x).currentBlock
        = some { level := headingLevel x.tagName, nodes := [x] } := by
      simp [wrapStep, hl]
    refine ⟨?_, ?_, ?_, ?_, ?_⟩
    · rw [e, List.map_append, List.flatten_append, h1]
      simp
    · intro hn
      rw [ec] at hn
      exact Option.noConfusion hn
    · intro b hb
      rw [e] at hb
      rcases List.mem_append.mp hb with hb | hb
      · exact h3 b hb
      · rw [List.mem_singleton] at hb
        subst hb
        exact ⟨x, [], rfl, by simp, by simp [hx]⟩
    · rw [e, List.length_append, h4, expectedBlockCount_concat_heading done x hx]
      rfl
    · intro b hb
      rw [e] at hb
      cases hf : flushBlock st with
      | nil =>
        rw [hf] at hb
        simp at hb
      | cons a l =>
        rw [hf] at hb h5
        simp only [List.cons_append, List.tail_cons] at hb h5
        rcases List.mem_append.mp hb with hb | hb
        · exact h5 b hb
        · rw [List.mem_singleton] at hb
          subst hb
          exact ⟨x, rfl, hx⟩
  · have hx' : isHeading x = false := by simpa using hx
    have hl : ¬ headingLevel x.tagName > 0 := by simpa [isHeading] using hx'
    cases hc : st.currentBlock with
    | none =>
      have hfr : st.fragment = [] := h2 hc
      have hdone : done = [] := by
        rw [← h1]
        simp [flushBlock, hc, hfr]
      have e : flushBlock (wrapStep st x) = [{ level := 1, nodes := [x] }] := by
        simp [wrapStep, hl, flushBlock, hc, hfr]
      have ec : (wrapStep st x).currentBlock = some { level := 1, nodes := [x] } := by
        simp [wrapStep, hl, hc]
      subst hdone
      refine ⟨?_, ?_, ?_, ?_, ?_⟩
      · rw [e]
        simp
      · intro hn
        rw [ec] at hn
        exact Option.noConfusion hn
      · intro b hb
        rw [e, List.mem_singleton] at hb
        subst hb
        exact ⟨x, [], rfl, by simp, by simp [hx']⟩
      · rw [e]
        simp [expectedBlockCount, hx']
      · intro b hb
        rw [e] at hb
        simp at hb
    | some cur =>
      have ef : flushBlock st = st.fragment ++ [cur] := by
        simp [flushBlock, hc]
      have e : flushBlock (wrapStep st x)
          = st.fragment ++ [{ level := cur.level, nodes := cur.nodes ++ [x] }] := by
        simp [wrapStep, hl, flushBlock, hc]
      have ec : (wrapStep st x).currentBlock
          = some { level := cur.level, nodes := cur.nodes ++ [x] } := by
        simp [wrapStep, hl, hc]
      obtain ⟨first, rest, hn, hrest, hlev⟩ := h3 cur (by rw [ef]; simp)
      have hdone : done ≠ [] := by
        rw [← h1, ef]
        simp [hn]
      refine ⟨?_, ?_, ?_, ?_, ?_⟩
      · rw [e, ← h1, ef]
        simp
      · intro hn'
        rw [ec] at hn'
        exact Option.noConfusion hn'
      · intro b hb
        rw [e] at hb
        rcases List.mem_append.mp hb with hb | hb
        · exact h3 b (by rw [ef]; exact List.mem_append_left _ hb)
        · rw [List.mem_singleton] at hb
          subst hb
          refine ⟨first, rest ++ [x], by simp [hn], ?_, hlev⟩
          intro n hn'
          rcases List.mem_append.mp hn' with hn' | hn'
          · exact hrest n hn'
          · rw [List.mem_singleton] at hn'
            rw [hn']
            exact hx'
      · rw [e, expectedBlockCount_concat_other done x hdone hx', ← h4, ef]
        simp
      · intro b hb
        rw [e] at hb
        rw [ef] at h5
        cases hfr : st.fragment with
        | nil =>
          rw [hfr] at hb
          simp at hb
        | cons a l =>
          rw [hfr] at hb h5
          simp only [List.cons_append, List.tail_cons] at hb h5
          rcases List.mem_append.mp hb with hb | hb
          · exact h5 b (List.mem_append_left _ hb)
          · rw [List.mem_singleton] at hb
            subst hb
            obtain ⟨f, hf1, hf2⟩ := h5 cur (by simp)
            refine ⟨f, ?_, hf2⟩
            rw [hn] at hf1
            simp [hn]
            simpa using hf1

theorem wrapInv_foldl (children : List Node) :
    WrapInv children (children.foldl wrapStep { fragment := [], currentBlock := none }) := by
  induction children using List.reverseRecOn with
  | nil => exact wrapInv_init
  | append_singleton l x ih =>
    rw [List.foldl_append]
    exact wrapInv_step l _ x ih

/-- The blocks of `wrapContentBlocks` satisfy the loop invariant for the whole
list of children. -/
theorem wrapContentBlocks_inv (children : List Node) :
    ((wrapContentBlocks children).map Block.nodes).flatten = children ∧
    (∀ b ∈ wrapContentBlocks children, BlockShape b) ∧
    (wrapContentBlocks children).length = expectedBlockCount children ∧
    (∀ b ∈ (wrapContentBlocks children).tail,
      ∃ first, b.nodes.head? = some first ∧ isHeading first = true) := by
  cases children with
  | nil =>
    refine ⟨rfl, ?_, rfl, ?_⟩
    · intro b hb
      simp [wrapContentBlocks] at hb
    · intro b hb
      simp [wrapContentBlocks] at hb
  | cons a l =>
    obtain ⟨h1, -, h3, h4, h5⟩ := wrapInv_foldl (a :: l)
    have e : wrapContentBlocks (a :: l)
        = flushBlock ((a :: l).foldl wrapStep { fragment := [], currentBlock := none }) := by
      simp [wrapContentBlocks]
    rw [e]
    exact ⟨h1, h3, h4, h5⟩

/-! ## Decimal digits -/

theorem toDigitsCore_eq (n : Nat) :
    ∀ fuel acc, n < fuel → Nat.toDigitsCore 10 fuel n acc = Nat.toDigits 10 n ++ acc := by
  induction n using Nat.strong_induction_on with
  | _ n ih =>
    intro fuel acc hf
    cases fuel with
    | zero => omega
    | succ f =>
      unfold Nat.toDigits
      simp only [Nat.toDigitsCore]
      by_cases h : n / 10 = 0
      · simp [h]
      · have hlt : n / 10 < n := by omega
        simp only [h, if_false]
        rw [ih (n / 10) hlt f _ (by omega), ih (n / 10) hlt n _ hlt]
        simp

theorem toDigits_step (n : Nat) :
    Nat.toDigits 10 n =
      if n / 10 = 0 then [Nat.digitChar (n % 10)]
      else Nat.toDigits 10 (n / 10) ++ [Nat.digitChar (n % 10)] := by
  conv_lhs => unfold Nat.toDigits
  simp only [Nat.toDigitsCore]
  by_cases h : n / 10 = 0
  · simp [h]
  · simp only [h, if_false]
    exact toDigitsCore_eq (n / 10) n _ (by omega)

theorem toDigits_ne_nil (n : Nat) : Nat.toDigits 10 n ≠ [] := by
  rw [toDigits_step]
  split_ifs <;> simp

theorem digitChar_injOn : ∀ a < 10, ∀ b < 10, Nat.digitChar a = Nat.digitChar b → a = b := by
  decide

theorem digitChar_isDigit : ∀ a < 10, '0' ≤ Nat.digitChar a ∧ Nat.digitChar a ≤ '9' := by
  decide

theorem toDigits_injective (n m : Nat) (h : Nat.toDigits 10 n = Nat.toDigits 10 m) :
    n = m := by
  induction n using Nat.strong_induction_on generalizing m with
  | _ n ih =>
    rw [toDigits_step n, toDigits_step m] at h
    by_cases hn : n / 10 = 0 <;> by_cases hm : m / 10 = 0
    · rw [if_pos hn, if_pos hm] at h
      have := digitChar_injOn (n % 10) (Nat.mod_lt _ (by decide)) (m % 10)
        (Nat.mod_lt _ (by decide)) (by simpa using h)
      omega
    · rw [if_pos hn, if_neg hm] at h
      have hl := congrArg List.length h
      have := List.length_pos.mpr (toDigits_ne_nil (m / 10))
      simp only [List.length_append, List.length_singleton] at hl
      omega
    · rw [if_neg hn, if_pos hm] at h
      have hl := congrArg List.length h
      have := List.length_pos.mpr (toDigits_ne_nil (n / 10))
      simp only [List.length_append, List.length_singleton] at hl
      omega
    · rw [if_neg hn, if_neg hm] at h
      obtain ⟨h1, h2⟩ := List.append_inj' h rfl
      have e1 := ih (n / 10) (by omega) (m / 10) h1
      have e2 := digitChar_injOn (n % 10) (Nat.mod_lt _ (by decide)) (m % 10)
        (Nat.mod_lt _ (by decide)) (by simpa using h2)
      omega

theorem toDigits_isDigit (n : Nat) : ∀ c ∈ Nat.toDigits 10 n, '0' ≤ c ∧ c ≤ '9' := by
  induction n using Nat.strong_induction_on with
  | _ n ih =>
    intro c hc
    rw [toDigits_step] at hc
    by_cases hn : n / 10 = 0
    · rw [if_pos hn, List.mem_singleton] at hc
      rw [hc]
      exact digitChar_isDigit _ (Nat.mod_lt _ (by decide))
    · rw [if_neg hn] at hc
      rcases List.mem_append.mp hc with hc | hc
      · exact ih (n / 10) (by omega) c hc
      · rw [List.mem_singleton] at hc
        rw [hc]
        exact digitChar_isDigit _ (Nat.mod_lt _ (by decide))

/-! ## The ids tried by `slugId` -/

theorem slugCandidate_injective (slug : Str) (j k : Nat)
    (h : slugCandidate slug j = slugCandidate slug k) : j = k := by
  unfold slugCandidate at h
  by_cases hj : j = 0 <;> by_cases hk : k = 0
  · rw [hj, hk]
  · rw [if_pos hj, if_neg hk] at h
    exact absurd (List.self_eq_append_right.mp h) (toDigits_ne_nil k)
  · rw [if_neg hj, if_pos hk] at h
    exact absurd (List.self_eq_append_right.mp h.symm) (toDigits_ne_nil j)
  · rw [if_neg hj, if_neg hk] at h
    exact toDigits_injective j k (List.append_cancel_left h)

/-- Among the first `ids.length + 1` candidates one is not in `ids`. -/
theorem exists_free_candidate (ids : List Str) (slug : Str) :
    ∃ k, k ≤ ids.length ∧ slugCandidate slug k ∉ ids := by
  by_contra hcon
  have hall : ∀ k, k ≤ ids.length → slugCandidate slug k ∈ ids := by
    intro k hk
    by_contra hm
    exact hcon ⟨k, hk, hm⟩
  have hnd : ((List.range (ids.length + 1)).map (slugCandidate slug)).Nodup :=
    List.Nodup.map (fun a b hab => slugCandidate_injective slug a b hab)
      (List.nodup_range _)
  have hsub : (List.range (ids.length + 1)).map (slugCandidate slug) ⊆ ids := by
    intro x hx
    obtain ⟨k, hk, rfl⟩ := List.mem_map.mp hx
    exact hall k (by have := List.mem_range.mp hk; omega)
  have hle := (List.subperm_of_subset hnd hsub).length_le
  simp at hle

theorem slugIdLoop_spec (ids : List Str) (slug : Str) (k : Nat)
    (hk : slugCandidate slug k ∉ ids) :
    ∀ fuel n, n ≤ k → (∀ j, n ≤ j → j < k → slugCandidate slug j ∈ ids) → k - n < fuel →
      slugIdLoop ids slug fuel n (slugCandidate slug n) = some (slugCandidate slug k) := by
  intro fuel
  induction fuel with
  | zero =>
    intro n _ _ hf
    omega
  | succ f ih =>
    intro n hn hall hf
    by_cases e : n = k
    · subst e
      simp [slugIdLoop, hk]
    · have hmem : slugCandidate slug n ∈ ids := hall n (Nat.le_refl _) (by omega)
      have hnext : slug ++ Nat.toDigits 10 (n + 1) = slugCandidate slug (n + 1) := by
        simp [slugCandidate]
      simp only [slugIdLoop, hmem, if_true]
      rw [hnext]
      exact ih (n + 1) (by omega) (fun j hj1 hj2 => hall j (by omega) hj2) (by omega)

/-- The loop of `slugId` ends: with more fuel than there are ids it returns the
first candidate that is not taken. -/
theorem slugIdLoop_terminates (ids : List Str) (slug : Str) :
    ∃ k, k ≤ ids.length ∧ slugCandidate slug k ∉ ids ∧
      (∀ j, j < k → slugCandidate slug j ∈ ids) ∧
      ∀ fuel, ids.length < fuel → slugIdLoop ids slug fuel 0 slug = some (slugCandidate slug k) := by
  classical
  have hex : ∃ k, slugCandidate slug k ∉ ids := by
    obtain ⟨k, -, hk⟩ := exists_free_candidate ids slug
    exact ⟨k, hk⟩
  obtain ⟨k0, hk0, hfree0⟩ := exists_free_candidate ids slug
  refine ⟨Nat.find hex, ?_, Nat.find_spec hex, ?_, ?_⟩
  · exact (Nat.find_min' hex hfree0).trans hk0
  · intro j hj
    by_contra hm
    exact Nat.find_min hex hj hm
  · intro fuel hf
    have h0 : slugCandidate slug 0 = slug := rfl
    have := slugIdLoop_spec ids slug (Nat.find hex) (Nat.find_spec hex) fuel 0 (Nat.zero_le _)
      (fun j _ hj => by
        by_contra hm
        exact Nat.find_min hex hj hm)
      (by have := (Nat.find_min' hex hfree0).trans hk0; omega)
    rw [h0] at this
    exact this

/-! ## The characters of a slug -/

theorem isIdChar_ne_slash (c : Char) (h : isIdChar c = true) : c ≠ '/' := by
  rintro rfl
  revert h
  decide

theorem isIdChar_not_whitespace (c : Char) (h : isIdChar c = true) :
    isJsWhitespace c = false := by
  simp only [isIdChar, Bool.or_eq_true, Bool.and_eq_true, decide_eq_true_eq] at h
  have hn : (97 ≤ c.toNat ∧ c.toNat ≤ 122) ∨ (48 ≤ c.toNat ∧ c.toNat ≤ 57) ∨ c.toNat = 45 := by
    rcases h with (⟨h1, h2⟩ | ⟨h1, h2⟩) | h
    · exact Or.inl ⟨h1, h2⟩
    · exact Or.inr (Or.inl ⟨h1, h2⟩)
    · subst h
      exact Or.inr (Or.inr rfl)
  simp only [isJsWhitespace, Bool.or_eq_false_iff, Bool.and_eq_false_iff,
    decide_eq_false_iff_not]
  omega

theorem isSlugChar_isIdChar (c : Char) (h : isSlugChar c = true) : isIdChar c = true := by
  simp only [isSlugChar, Bool.or_eq_true, Bool.and_eq_true, decide_eq_true_eq] at h
  simp only [isIdChar, Bool.or_eq_true, Bool.and_eq_true, decide_eq_true_eq]
  exact Or.inl h

theorem replaceNonSlugRuns_chars (s : Str) :
    ∀ c ∈ replaceNonSlugRuns s, isIdChar c = true := by
  induction s using replaceNonSlugRuns.induct with
  | case1 => simp [replaceNonSlugRuns]
  | case2 c hc =>
    intro x hx
    rw [replaceNonSlugRuns, if_pos hc, List.mem_singleton] at hx
    rw [hx]
    exact isSlugChar_isIdChar c hc
  | case3 c hc =>
    intro x hx
    rw [replaceNonSlugRuns, if_neg hc, List.mem_singleton] at hx
    rw [hx]
    decide
  | case4 c d rest hc ih =>
    intro x hx
    rw [replaceNonSlugRuns, if_pos hc] at hx
    rcases List.mem_cons.mp hx with e | hx
    · rw [e]
      exact isSlugChar_isIdChar c hc
    · exact ih x hx
  | case5 c d rest hc hd ih =>
    intro x hx
    rw [replaceNonSlugRuns, if_neg hc, if_pos hd] at hx
    rcases List.mem_cons.mp hx with e | hx
    · rw [e]
      decide
    · exact ih x hx
  | case6 c d rest hc hd ih =>
    intro x hx
    rw [replaceNonSlugRuns, if_neg hc, if_neg hd] at hx
    exact ih x hx

theorem stripOneDash_subset (s : Str) : ∀ c ∈ stripOneDash s, c ∈ s := by
  intro c hc
  unfold stripOneDash at hc
  have ht : ∀ x ∈ (match s with
      | [] => []
      | c :: r => if c = '-' then r else c :: r), x ∈ s := by
    intro x hx
    cases s with
    | nil => exact hx
    | cons a r =>
      simp only at hx
      split_ifs at hx
      · exact List.mem_cons_of_mem _ hx
      · exact hx
  simp only at hc
  split_ifs at hc
  · exact ht c (List.dropLast_subset _ hc)
  · exact ht c hc

theorem slugOf_chars (toLowerCase : Str → Str) (name owner repo : Str) :
    slugOf toLowerCase name owner repo ≠ [] ∧
    ∀ c ∈ slugOf toLowerCase name owner repo, isIdChar c = true := by
  unfold slugOf
  generalize toLowerCase (orElse name (owner ++ "/".toList ++ repo)) = t
  by_cases h : stripOneDash (replaceNonSlugRuns t) = []
  · rw [h]
    exact ⟨by decide, by decide⟩
  · rw [orElse_of_ne_nil _ _ h]
    exact ⟨h, fun c hc => replaceNonSlugRuns_chars t c (stripOneDash_subset _ c hc)⟩

theorem slugCandidate_chars (slug : Str) (k : Nat) (h0 : slug ≠ [])
    (h : ∀ c ∈ slug, isIdChar c = true) :
    slugCandidate slug k ≠ [] ∧ ∀ c ∈ slugCandidate slug k, isIdChar c = true := by
  unfold slugCandidate
  split_ifs
  · exact ⟨h0, h⟩
  · refine ⟨by simp [h0], ?_⟩
    intro c hc
    rcases List.mem_append.mp hc with hc | hc
    · exact h c hc
    · have := toDigits_isDigit k c hc
      simp only [isIdChar, Bool.or_eq_true, Bool.and_eq_true, decide_eq_true_eq]
      exact Or.inl (Or.inr this)

/-! ## Decoding the address of a source -/

/-- The address normalisation leaves `s/...` alone when it begins with `s` and
ends with a character that is neither `/` nor white space. -/
theorem trim_stripSlashRuns_eq_self (t : Str) (c : Char) (hc1 : c ≠ '/')
    (hc2 : isJsWhitespace c = false) :
    trim (stripSlashRuns ('s' :: (t ++ [c]))) = 's' :: (t ++ [c]) := by
  have e : 's' :: (t ++ [c]) = ('s' :: t) ++ [c] := rfl
  have h1 : stripSlashRuns ('s' :: (t ++ [c])) = 's' :: (t ++ [c]) := by
    unfold stripSlashRuns
    rw [List.dropWhile_cons_of_neg (by decide), e,
      List.rdropWhile_concat_neg _ _ _ (by simpa using hc1)]
  have h2 : trim ('s' :: (t ++ [c])) = 's' :: (t ++ [c]) := by
    unfold trim
    rw [List.dropWhile_cons_of_neg (by decide), e,
      List.rdropWhile_concat_neg _ _ _ (by simp [hc2])]
  rw [h1, h2]

theorem normalizeAddress_source (t : Str) (c : Char) (hc1 : c ≠ '/')
    (hc2 : isJsWhitespace c = false) :
    normalizeAddress ('/' :: 's' :: (t ++ [c])) = 's' :: (t ++ [c]) ∧
    normalizeAddress ('/' :: 's' :: (t ++ [c]) ++ ['/']) = 's' :: (t ++ [c]) := by
  have h := trim_stripSlashRuns_eq_self t c hc1 hc2
  have hs : stripSlashRuns ('s' :: (t ++ [c])) = 's' :: (t ++ [c]) := by
    have e : 's' :: (t ++ [c]) = ('s' :: t) ++ [c] := rfl
    unfold stripSlashRuns
    rw [List.dropWhile_cons_of_neg (by decide), e,
      List.rdropWhile_concat_neg _ _ _ (by simpa using hc1)]
  have h1 : stripSlashRuns ('/' :: 's' :: (t ++ [c])) = stripSlashRuns ('s' :: (t ++ [c])) := by
    unfold stripSlashRuns
    rw [List.dropWhile_cons_of_pos (by decide)]
  have h2 : stripSlashRuns ('/' :: 's' :: (t ++ [c]) ++ ['/'])
      = stripSlashRuns ('s' :: (t ++ [c])) := by
    unfold stripSlashRuns
    have e : '/' :: 's' :: (t ++ [c]) ++ ['/'] = '/' :: (('s' :: (t ++ [c])) ++ ['/']) := rfl
    have e' : ('s' :: (t ++ [c])) ++ ['/'] = 's' :: ((t ++ [c]) ++ ['/']) := rfl
    rw [e, List.dropWhile_cons_of_pos (by decide), e',
      List.dropWhile_cons_of_neg (by decide), List.dropWhile_cons_of_neg (by decide),
      ← e', List.rdropWhile_concat_pos _ _ _ (by decide)]
  unfold normalizeAddress
  rw [h1, h2, h]
  exact ⟨rfl, rfl⟩

/-- The address `/s/<id>/` decodes to the document route `(id, index)` when
`id` is non-empty and made of characters of `[a-z0-9-]`. -/
theorem decode_source_root (id : Str) (h0 : id ≠ [])
    (h : ∀ c ∈ id, isIdChar c = true) :
    decode ("/s/".toList ++ id ++ "/".toList) = Route.source id DEFAULT_PATH := by
  obtain ⟨init, c, rfl⟩ : ∃ init c, id = init ++ [c] := by
    rcases List.eq_nil_or_concat id with e | ⟨init, c, e⟩
    · exact absurd e h0
    · exact ⟨init, c, by simpa using e⟩
  have hc := h c (by simp)
  have hsl : '/' ∉ init ++ [c] := fun hm => isIdChar_ne_slash '/' (h '/' hm) rfl
  have ha : "/s/".toList ++ (init ++ [c]) ++ "/".toList
      = '/' :: 's' :: (('/' :: init) ++ [c]) ++ ['/'] := by
    simp
  have hn := (normalizeAddress_source ('/' :: init) c (isIdChar_ne_slash c hc)
    (isIdChar_not_whitespace c hc)).2
  have hp : getPathFromHash ('#' :: ("/s/".toList ++ (init ++ [c]) ++ "/".toList))
      = 's' :: '/' :: (init ++ [c]) := by
    unfold getPathFromHash
    rw [List.drop_one, List.tail_cons, ha, hn]
    simp
  have hsplit : filterBoolean (split '/' ('s' :: '/' :: (init ++ [c])))
      = ["s".toList, init ++ [c]] := by
    have e : 's' :: '/' :: (init ++ [c]) = "s".toList ++ '/' :: (init ++ [c]) := rfl
    rw [e, split_append_sep, split_of_not_mem '/' "s".toList (by decide),
      split_of_not_mem '/' _ hsl]
    exact filterBoolean_eq_self _ (by
      intro s hs
      rcases List.mem_append.mp hs with hs | hs <;> rw [List.mem_singleton] at hs <;> rw [hs]
      · decide
      · simp)
  unfold decode
  rw [hp, (parseRoute_of_segments _).2.2 _ _ _ hsplit]
  simp

theorem slugIdLoop_result (ids : List Str) (slug : Str) :
    ∀ fuel n id, slugIdLoop ids slug fuel n (slugCandidate slug n) = some id →
      ∃ k, id = slugCandidate slug k := by
  intro fuel
  induction fuel with
  | zero =>
    intro n id h
    simp [slugIdLoop] at h
  | succ f ih =>
    intro n id h
    have hnext : slug ++ Nat.toDigits 10 (n + 1) = slugCandidate slug (n + 1) := by
      simp [slugCandidate]
    simp only [slugIdLoop] at h
    split_ifs at h
    · rw [hnext] at h
      exact ih (n + 1) id h
    · exact ⟨n, (Option.some.inj h).symm⟩

theorem map_id_length (sources : List Source) :
    (sources.map (fun s => s.id)).length = sources.length := by
  simp

/-! ## The shape of a resolved path -/

theorem resolveRelativeLink_eq_segments (p h : Str)
    (hc : (h.isEmpty || startsWith h "#".toList || startsWith h "http".toList
      || startsWith h "/".toList) = false) :
    resolveRelativeLink p h =
      orElse (stripMdSuffix (join "/".toList (resolveSegments p h))) DEFAULT_PATH := by
  unfold resolveRelativeLink resolveSegments
  rw [hc]
  simp only [Bool.false_eq_true, if_false]

theorem foldl_resolveStep_plain_out (segs out : List Str)
    (hout : ∀ s ∈ out, PlainSegment s) (hsegs : ∀ s ∈ segs, s ≠ [] ∧ '/' ∉ s) :
    ∀ s ∈ segs.foldl resolveStep out, PlainSegment s := by
  induction segs generalizing out with
  | nil => exact hout
  | cons x r ih =>
    rw [List.foldl_cons]
    apply ih
    · intro s hs
      unfold resolveStep at hs
      by_cases h2 : x = "..".toList
      · rw [if_pos h2] at hs
        exact hout s (List.dropLast_subset _ hs)
      · rw [if_neg h2] at hs
        by_cases h1 : x = ".".toList
        · rw [if_neg (not_not.mpr h1)] at hs
          exact hout s hs
        · rw [if_pos h1] at hs
          rcases List.mem_append.mp hs with hs | hs
          · exact hout s hs
          · rw [List.mem_singleton] at hs
            rw [hs]
            obtain ⟨hx0, hx1⟩ := hsegs x (by simp)
            exact ⟨hx0, hx1, h1, h2⟩
    · exact fun s hs => hsegs s (List.mem_cons_of_mem _ hs)

theorem resolveSegments_plain (p h : Str) : ∀ s ∈ resolveSegments p h, PlainSegment s := by
  unfold resolveSegments
  apply foldl_resolveStep_plain_out
  · intro s hs
    simp at hs
  · intro s hs
    exact segment_plain _ s hs

theorem exists_mdSuffix_of_endsWithMd (y : Str) (h : endsWithMd y = true) :
    ∃ z suf, suf ∈ mdSuffixes ∧ y = z ++ suf := by
  unfold endsWithMd at h
  obtain ⟨suf, hsuf, hends⟩ := List.any_eq_true.mp h
  unfold endsWith at hends
  obtain ⟨z, hz⟩ := List.isSuffixOf_iff_suffix.mp hends
  exact ⟨z, suf, hsuf, hz.symm⟩

/-- The result of `resolveRelativeLink` for an href that is not returned
unchanged: plain segments `init` followed by a last segment `z` without `/`;
`z` can be empty, `.` or `..` only as what is left of a last accumulated segment
`z + suffix` after the `.md` strip. -/
theorem resolveRelativeLink_shape (p h : Str)
    (hc : (h.isEmpty || startsWith h "#".toList || startsWith h "http".toList
      || startsWith h "/".toList) = false) :
    ∃ init z, (∀ s ∈ init, PlainSegment s) ∧ '/' ∉ z ∧ (init = [] → z ≠ []) ∧
      resolveRelativeLink p h = join "/".toList (init ++ [z]) ∧
      (¬ PlainSegment z → ∃ suf ∈ mdSuffixes,
        (resolveSegments p h).getLast? = some (z ++ suf)) := by
  have hplain := resolveSegments_plain p h
  rw [resolveRelativeLink_eq_segments p h hc]
  have hdefault : ∀ L : List Str, ∃ init z, (∀ s ∈ init, PlainSegment s) ∧ '/' ∉ z ∧
      (init = [] → z ≠ []) ∧ DEFAULT_PATH = join "/".toList (init ++ [z]) ∧
      (¬ PlainSegment z → ∃ suf ∈ mdSuffixes, L.getLast? = some (z ++ suf)) :=
    fun _ => ⟨[], DEFAULT_PATH, by simp, by decide, fun _ => by decide, rfl,
      fun hn => absurd (by decide) hn⟩
  rcases List.eq_nil_or_concat (resolveSegments p h) with e | ⟨init, y, e⟩
  · rw [e]
    have e0 : orElse (stripMdSuffix (join "/".toList [])) DEFAULT_PATH = DEFAULT_PATH := rfl
    rw [e0]
    exact hdefault _
  · have e' : resolveSegments p h = init ++ [y] := by simpa using e
    rw [e'] at hplain
    have hinit : ∀ s ∈ init, PlainSegment s := fun s hs =>
      hplain s (List.mem_append_left _ hs)
    have hy : PlainSegment y := hplain y (by simp)
    by_cases hmd : endsWithMd y = true
    · obtain ⟨z, suf, hsuf, rfl⟩ := exists_mdSuffix_of_endsWithMd y hmd
      have hz : '/' ∉ z := fun hm => hy.2.1 (List.mem_append_left _ hm)
      rw [e', join_concat_append, stripMdSuffix_append_suffix _ suf hsuf]
      by_cases hnil : join "/".toList (init ++ [z]) = []
      · rw [hnil, orElse_nil]
        exact hdefault _
      · rw [orElse_of_ne_nil _ _ hnil]
        refine ⟨init, z, hinit, hz, ?_, rfl, fun _ => ⟨suf, hsuf, by simp⟩⟩
        intro hi hz0
        apply hnil
        rw [hi, hz0]
        rfl
    · have hmd' : endsWithMd y = false := by simpa using hmd
      rw [e', finish_of_not_endsWithMd init y hy.1 hmd']
      exact ⟨init, y, hinit, hy.2.1, fun _ => hy.1, rfl, fun hn => absurd hy hn⟩

theorem split_join_concat (init : List Str) (z : Str)
    (hinit : ∀ s ∈ init, PlainSegment s) (hz : '/' ∉ z) :
    split '/' (join "/".toList (init ++ [z])) = init ++ [z] :=
  split_join '/' (init ++ [z]) (by simp) (by
    intro s hs
    rcases List.mem_append.mp hs with hs | hs
    · exact (hinit s hs).2.1
    · rw [List.mem_singleton] at hs
      rw [hs]
      exact hz)

theorem getLast?_join_concat (init : List Str) (z : Str) (hz : z ≠ []) :
    (join "/".toList (init ++ [z])).getLast? = z.getLast? := by
  obtain ⟨c, hc⟩ : ∃ c, z.getLast? = some c := by
    cases hl : z.getLast? with
    | none => exact absurd (List.getLast?_eq_none_iff.mp hl) hz
    | some c => exact ⟨c, rfl⟩
  by_cases hi : init = []
  · rw [hi]
    rfl
  · rw [join_concat _ init z hi, List.getLast?_append, hc]
    rfl

theorem getLast?_join_concat_nil (init : List Str) (hi : init ≠ []) :
    (join "/".toList (init ++ [[]])).getLast? = some '/' := by
  rw [join_concat _ init [] hi, List.append_nil, List.getLast?_append]
  rfl

theorem startsWith_slash_of_head (s : Str) (h : ∀ c, s.head? = some c → c ≠ '/') :
    startsWith s "/".toList = false := by
  cases s with
  | nil => rfl
  | cons c cs =>
    have hc : c ≠ '/' := h c rfl
    simp [startsWith, List.isPrefixOf, Ne.symm hc]

theorem head?_join_concat_ne_slash (init : List Str) (z : Str)
    (hinit : ∀ s ∈ init, PlainSegment s) (hz : '/' ∉ z) :
    ∀ c, (join "/".toList (init ++ [z])).head? = some c → c ≠ '/' := by
  intro c hc
  cases init with
  | nil =>
    have hc' : z.head? = some c := hc
    intro e
    rw [e] at hc'
    exact hz (List.mem_of_mem_head? hc')
  | cons x r =>
    obtain ⟨hx0, hx1, -, -⟩ := hinit x (by simp)
    rw [List.cons_append, head?_join _ x _ hx0] at hc
    intro e
    rw [e] at hc
    exact hx1 (List.mem_of_mem_head? hc)

theorem endsWith_slash_iff (s : Str) :
    endsWith s "/".toList = true ↔ s.getLast? = some '/' := by
  unfold endsWith
  rw [List.isSuffixOf_iff_suffix]
  constructor
  · rintro ⟨t, rfl⟩
    exact List.getLast?_concat t
  · intro h
    obtain ⟨t, rfl⟩ := List.getLast?_eq_some_iff.mp h
    exact ⟨t, rfl⟩

theorem not_plain_cases (z : Str) (hz : '/' ∉ z) (h : ¬ PlainSegment z) :
    z = [] ∨ z = ".".toList ∨ z = "..".toList := by
  unfold PlainSegment at h
  by_contra hcon
  push_neg at hcon
  exact h ⟨hcon.1, hz, hcon.2.1, hcon.2.2⟩

theorem rewritable_of_parts (h : Str) (hne : h ≠ [])
    (hhash : startsWith h "#".toList = false) (hhttp : startsWith h "http".toList = false)
    (hslash : startsWith h "/".toList = false) :
    (h.isEmpty || startsWith h "#".toList || startsWith h "http".toList
      || startsWith h "/".toList) = false := by
  rw [hhash, hhttp, hslash]
  cases h with
  | nil => exact absurd rfl hne
  | cons c cs => rfl

/-! ## Segmentation is an order-preserving partition (C11) -/

/-- C11: for every list of top-level nodes, the node lists of the blocks of
`wrapContentBlocks`, concatenated in block order, are exactly the input list,
and no block is empty. -/
theorem wrapContentBlocks_partition (children : List Node) :
    ((wrapContentBlocks children).map Block.nodes).flatten = children ∧
    (∀ b ∈ wrapContentBlocks children, b.nodes ≠ []) ∧
    ((wrapContentBlocks children).map (fun b => b.nodes.length)).sum = children.length := by
  obtain ⟨h1, h3, -, -⟩ := wrapContentBlocks_inv children
  refine ⟨h1, ?_, ?_⟩
  · intro b hb
    obtain ⟨first, rest, hn, -, -⟩ := h3 b hb
    rw [hn]
    simp
  · have hlen := congrArg List.length h1
    rw [List.length_flatten, List.map_map] at hlen
    exact hlen

/-! ## The number and the shape of the blocks (C12) -/

/-- C12: the empty list gives no blocks; otherwise there is one block per
heading, plus one when the first node is not a heading.  In every block only
the first node can be a heading; every block after the first begins with a
heading and has its level; the first block has the level of its first node when
that is a heading and level `1` otherwise.  The list `H1, P, P, H2, P` gives the
two blocks `H1, P, P` and `H2, P`. -/
theorem wrapContentBlocks_blocks (children : List Node) :
    wrapContentBlocks [] = [] ∧
    (wrapContentBlocks children).length =
      children.countP isHeading +
        (match children.head? with
          | some n => if isHeading n then 0 else 1
          | none => 0) ∧
    (∀ b ∈ wrapContentBlocks children, ∀ n ∈ b.nodes.tail, isHeading n = false) ∧
    (∀ b ∈ (wrapContentBlocks children).tail,
      ∃ first, b.nodes.head? = some first ∧ isHeading first = true ∧
        b.level = headingLevel first.tagName) ∧
    (∀ b, (wrapContentBlocks children).head? = some b →
      ∃ first, b.nodes.head? = some first ∧
        b.level = if isHeading first then headingLevel first.tagName else 1) ∧
    wrapContentBlocks
        [⟨"H1".toList, 0⟩, ⟨"P".toList, 1⟩, ⟨"P".toList, 2⟩, ⟨"H2".toList, 3⟩,
          ⟨"P".toList, 4⟩]
      = [⟨1, [⟨"H1".toList, 0⟩, ⟨"P".toList, 1⟩, ⟨"P".toList, 2⟩]⟩,
         ⟨2, [⟨"H2".toList, 3⟩, ⟨"P".toList, 4⟩]⟩] := by
  obtain ⟨-, h3, h4, h5⟩ := wrapContentBlocks_inv children
  refine ⟨rfl, h4, ?_, ?_, ?_, by decide⟩
  · intro b hb n hn
    obtain ⟨first, rest, hnodes, hrest, -⟩ := h3 b hb
    rw [hnodes] at hn
    exact hrest n hn
  · intro b hb
    obtain ⟨first, hf, hh⟩ := h5 b hb
    obtain ⟨first', rest, hnodes, -, hlev⟩ := h3 b (List.mem_of_mem_tail hb)
    rw [hnodes] at hf
    simp only [List.head?_cons, Option.some.injEq] at hf
    subst hf
    refine ⟨first', by rw [hnodes]; rfl, hh, ?_⟩
    rw [hlev, if_pos hh]
  · intro b hb
    obtain ⟨first, rest, hnodes, -, hlev⟩ := h3 b (List.mem_of_mem_head? hb)
    exact ⟨first, by rw [hnodes]; rfl, hlev⟩

/-! ## `pathToFile` (C13) -/

/-- C13: `pathToFile(p)` ends with `.md`; with `s` the sanitized path, or `index`
when `p` is absent or its sanitized form is empty, it is `s` when `s` ends with
`.md` and `s + ".md"` otherwise; `""`, `"/"` and `".."` all give `index.md`. -/
theorem pathToFile_spec (path : Option Str) :
    pathToFile path =
      (if endsWith
          (match path with
            | none => DEFAULT_PATH
            | some p => if sanitizePath p = [] then DEFAULT_PATH else sanitizePath p)
          ".md".toList
        then
          (match path with
            | none => DEFAULT_PATH
            | some p => if sanitizePath p = [] then DEFAULT_PATH else sanitizePath p)
        else
          (match path with
            | none => DEFAULT_PATH
            | some p => if sanitizePath p = [] then DEFAULT_PATH else sanitizePath p)
            ++ ".md".toList) ∧
    endsWith (pathToFile path) ".md".toList = true ∧
    pathToFile (some "".toList) = "index.md".toList ∧
    pathToFile (some "/".toList) = "index.md".toList ∧
    pathToFile (some "..".toList) = "index.md".toList ∧
    pathToFile none = "index.md".toList := by
  have hstem : orElse (sanitizePath (orDefault path DEFAULT_PATH)) DEFAULT_PATH =
      (match path with
        | none => DEFAULT_PATH
        | some p => if sanitizePath p = [] then DEFAULT_PATH else sanitizePath p) := by
    cases path with
    | none => decide
    | some p =>
      cases p with
      | nil => decide
      | cons c cs =>
        simp only [orDefault, orElse_of_ne_nil (c :: cs) DEFAULT_PATH (by simp)]
        by_cases hs : sanitizePath (c :: cs) = []
        · rw [hs, if_pos rfl]
          rfl
        · rw [if_neg hs, orElse_of_ne_nil _ _ hs]
  refine ⟨?_, ?_, by decide, by decide, by decide, by decide⟩
  · unfold pathToFile
    simp only [hstem]
  · unfold pathToFile
    simp only [hstem]
    split_ifs with h
    · exact h
    · simp [endsWith]

/-! ## The characters of a sanitized path (C17) -/

/-- C17: `sanitizePath` is a total function that only deletes characters, and
every character of its result is in the allow-list `[A-Za-z0-9/_.-]`. -/
theorem sanitizePath_allowed_chars (s : Str) :
    (sanitizePath s).Sublist s ∧
    ∀ c ∈ sanitizePath s,
      ('A' ≤ c ∧ c ≤ 'Z') ∨ ('a' ≤ c ∧ c ≤ 'z') ∨ ('0' ≤ c ∧ c ≤ '9') ∨
        c = '/' ∨ c = '_' ∨ c = '.' ∨ c = '-' := by
  constructor
  · unfold sanitizePath removeDisallowed
    exact (List.filter_sublist _).trans
      (((stripOneSlash_isInfix _).sublist.trans (collapseSlashes_sublist _)).trans
        (removeDotDot_sublist s))
  · intro c hc
    unfold sanitizePath removeDisallowed at hc
    have h := (List.mem_filter.mp hc).2
    simp only [isAllowedChar, Bool.or_eq_true, Bool.and_eq_true, decide_eq_true_eq] at h
    tauto

/-! ## Internal links (C14) -/

/-- C14: for every context and every href that begins with `#/`, the listener
added is the internal one, it assigns the href without its `#` to the location
hash, and it is not the same-source listener. -/
theorem anchorHandler_internal (context : Option Context) (href : Str)
    (h : startsWith href "#/".toList = true) :
    anchorHandler context href = LinkHandler.internal (href.drop 1) ∧
    ∀ hash, anchorHandler context href ≠ LinkHandler.sameSource hash := by
  have e : anchorHandler context href = LinkHandler.internal (href.drop 1) := by
    unfold anchorHandler
    simp only [h, if_true]
  refine ⟨e, fun hash => ?_⟩
  rw [e]
  exact fun h' => LinkHandler.noConfusion h'

/-- C14 (witness): in the context of source `foo`, the href `#/s/other/guide`
gets the internal listener that assigns `/s/other/guide`. -/
theorem anchorHandler_internal_witness :
    anchorHandler (some ⟨some "foo".toList, some "guide/setup".toList⟩)
        "#/s/other/guide".toList
      = LinkHandler.internal ("#/s/other/guide".toList.drop 1) ∧
    ∀ hash, anchorHandler (some ⟨some "foo".toList, some "guide/setup".toList⟩)
        "#/s/other/guide".toList ≠ LinkHandler.sameSource hash :=
  anchorHandler_internal _ _ (by decide)

/-! ## Ordinary links (C15) -/

theorem resolveRelativeLink_of_hash (p h : Str) (hh : startsWith h "#".toList = true) :
    resolveRelativeLink p h = h := by
  unfold resolveRelativeLink
  rw [hh]
  simp

/-- C15 (counterexample): an href with a URL scheme other than `http...` is not
left alone: in the context of source `foo`, `ftp://example.com/x` gets the
same-source listener. -/
theorem anchorHandler_scheme_not_ordinary :
    ¬ ∀ (context : Option Context) (href : Str),
      (hasUrlScheme href = true ∨ startsWith href "mailto:".toList = true ∨
        (startsWith href "#".toList = true ∧ startsWith href "#/".toList = false)) →
      anchorHandler context href = LinkHandler.ordinary := by
  intro h
  have h1 := h (some ⟨some "foo".toList, some "guide/setup".toList⟩)
    "ftp://example.com/x".toList (Or.inl (by decide))
  revert h1
  decide

/-- C15 (amended): for every context and every href that begins with `http`,
begins with `mailto:`, or begins with `#` but not with `#/`, no listener is
added. -/
theorem anchorHandler_ordinary (context : Option Context) (href : Str)
    (h : startsWith href "http".toList = true ∨ startsWith href "mailto:".toList = true ∨
      (startsWith href "#".toList = true ∧ startsWith href "#/".toList = false)) :
    anchorHandler context href = LinkHandler.ordinary := by
  unfold anchorHandler
  rcases h with h | h | ⟨h1, h2⟩
  · have h0 : startsWith href "#/".toList = false := by
      cases href with
      | nil => rfl
      | cons c cs =>
        simp only [startsWith, List.isPrefixOf, Bool.and_eq_true, beq_iff_eq] at h
        simp [startsWith, List.isPrefixOf, ← h.1]
    rw [h0, h]
    simp
  · have h0 : startsWith href "#/".toList = false := by
      cases href with
      | nil => rfl
      | cons c cs =>
        simp only [startsWith, List.isPrefixOf, Bool.and_eq_true, beq_iff_eq] at h
        simp [startsWith, List.isPrefixOf, ← h.1]
    rw [h0, h]
    simp
  · simp only [h2, resolveRelativeLink_of_hash _ href h1]
    simp

/-- C15 (witness): `https://example.com`, `mailto:a@b.c` and `#top` get no
listener in the context of source `foo`. -/
theorem anchorHandler_ordinary_witness :
    anchorHandler (some ⟨some "foo".toList, some "guide/setup".toList⟩)
        "https://example.com".toList = LinkHandler.ordinary ∧
    anchorHandler (some ⟨some "foo".toList, some "guide/setup".toList⟩)
        "mailto:a@b.c".toList = LinkHandler.ordinary ∧
    anchorHandler (some ⟨some "foo".toList, some "guide/setup".toList⟩)
        "#top".toList = LinkHandler.ordinary :=
  ⟨anchorHandler_ordinary _ _ (Or.inl (by decide)),
   anchorHandler_ordinary _ _ (Or.inr (Or.inl (by decide))),
   anchorHandler_ordinary _ _ (Or.inr (Or.inr (by decide)))⟩

/-! ## Fresh source ids (C16) -/

/-- C16: for every registry, name, owner and repo, `slugId` returns (with any
fuel above the size of the registry) the `k`-th candidate, where `k` is the
smallest index whose candidate is not a registered id: the bare slug for
`k = 0`, the slug followed by the decimal digits of `k` otherwise.  The id is
not registered, so registering a source keeps distinct ids distinct, and
registering the name `docs` twice gives the ids `docs` and `docs1`. -/
theorem slugId_fresh (toLowerCase : Str → Str) (sources : List Source)
    (name owner repo : Str) :
    (∃ k, k ≤ sources.length ∧
      (∀ fuel, sources.length < fuel →
        slugId toLowerCase sources fuel name owner repo
          = some (slugCandidate (slugOf toLowerCase name owner repo) k)) ∧
      slugCandidate (slugOf toLowerCase name owner repo) k ∉ sources.map (fun s => s.id) ∧
      (∀ j, j < k →
        slugCandidate (slugOf toLowerCase name owner repo) j ∈ sources.map (fun s => s.id))) ∧
    (∀ fuel ref subdir token, sources.length < fuel →
      (sources.map (fun s => s.id)).Nodup →
      ∃ added, registerSource toLowerCase sources fuel name owner repo ref subdir token
          = some (sources ++ [added]) ∧
        added.id ∉ sources.map (fun s => s.id) ∧
        ((sources ++ [added]).map (fun s => s.id)).Nodup) ∧
    Option.map (List.map (fun s => s.id))
        (registerSource asciiToLowerCase [] 1 "docs".toList "o".toList "r".toList
          "main".toList [] none)
      = some ["docs".toList] ∧
    Option.map (List.map (fun s => s.id))
        (registerSource asciiToLowerCase
          [⟨"docs".toList, "docs".toList, "o".toList, "r".toList, "main".toList, [], none⟩]
          2 "docs".toList "o".toList "r".toList "main".toList [] none)
      = some ["docs".toList, "docs1".toList] := by
  refine ⟨?_, ?_, by decide, by decide⟩
  · obtain ⟨k, hk, hfree, hmin, hloop⟩ :=
      slugIdLoop_terminates (sources.map (fun s => s.id)) (slugOf toLowerCase name owner repo)
    rw [map_id_length] at hk
    refine ⟨k, hk, ?_, hfree, hmin⟩
    intro fuel hf
    unfold slugId
    exact hloop fuel (by rw [map_id_length]; exact hf)
  · intro fuel ref subdir token hf hnd
    generalize hname : trim (orElse name (owner ++ "/".toList ++ repo)) = name'
    obtain ⟨k, -, hfree, -, hloop⟩ :=
      slugIdLoop_terminates (sources.map (fun s => s.id))
        (slugOf toLowerCase name' owner repo)
    generalize hcand : slugCandidate (slugOf toLowerCase name' owner repo) k = cand
      at hfree hloop
    have hid : slugId toLowerCase sources fuel name' owner repo = some cand := by
      unfold slugId
      exact hloop fuel (by rw [map_id_length]; exact hf)
    refine ⟨⟨cand, name', owner, repo, ref, subdir, token⟩, ?_, hfree, ?_⟩
    · unfold registerSource
      simp only [hname, hid]
      rw [if_neg hfree]
    · rw [List.map_append, List.nodup_append]
      refine ⟨hnd, by simp, ?_⟩
      intro a ha hb
      rw [List.map_singleton, List.mem_singleton] at hb
      have hb' : a = cand := hb
      rw [hb'] at ha
      exact hfree ha

/-! ## The id of a source is an address segment (C20) -/

/-- C20: every id `slugId` returns is non-empty and made of characters of
`[a-z0-9-]`, so it has no `/`, and the address `/s/<id>/` decodes to the
document route `(id, index)`; with fuel above the size of the registry
`slugId` does return an id. -/
theorem slugId_decodes (toLowerCase : Str → Str) (sources : List Source)
    (name owner repo : Str) :
    (∀ fuel id, slugId toLowerCase sources fuel name owner repo = some id →
      id ≠ [] ∧
      (∀ c ∈ id, ('a' ≤ c ∧ c ≤ 'z') ∨ ('0' ≤ c ∧ c ≤ '9') ∨ c = '-') ∧
      '/' ∉ id ∧
      decode ("/s/".toList ++ id ++ "/".toList) = Route.source id "index".toList) ∧
    ∃ id, ∀ fuel, sources.length < fuel →
      slugId toLowerCase sources fuel name owner repo = some id := by
  constructor
  · intro fuel id h
    unfold slugId at h
    obtain ⟨k, rfl⟩ := slugIdLoop_result _ _ fuel 0 id h
    obtain ⟨hs0, hs⟩ := slugOf_chars toLowerCase name owner repo
    obtain ⟨h0, hc⟩ := slugCandidate_chars _ k hs0 hs
    refine ⟨h0, ?_, ?_, decode_source_root _ h0 hc⟩
    · intro c hm
      have := hc c hm
      simp only [isIdChar, Bool.or_eq_true, Bool.and_eq_true, decide_eq_true_eq] at this
      tauto
    · intro hm
      exact isIdChar_ne_slash '/' (hc '/' hm) rfl
  · obtain ⟨k, -, -, -, hloop⟩ :=
      slugIdLoop_terminates (sources.map (fun s => s.id)) (slugOf toLowerCase name owner repo)
    refine ⟨slugCandidate (slugOf toLowerCase name owner repo) k, fun fuel hf => ?_⟩
    unfold slugId
    exact hloop fuel (by rw [map_id_length]; exact hf)

/-! ## Resolved paths are normalised, up to the `.md` strip (C19) -/

/-- C19 (counterexample): the result of `resolveRelativeLink` is not always a
normalised path: from `guide/setup` the href `.md` resolves to `guide/`, which
ends with `/`; `..md` resolves to `guide/.` and `...md` to `guide/..`. -/
theorem resolveRelativeLink_not_normalised :
    (¬ ∀ (p h : Str), h ≠ [] → startsWith h "#".toList = false →
      startsWith h "http".toList = false → startsWith h "/".toList = false →
      resolveRelativeLink p h ≠ [] ∧
      startsWith (resolveRelativeLink p h) "/".toList = false ∧
      endsWith (resolveRelativeLink p h) "/".toList = false ∧
      [] ∉ split '/' (resolveRelativeLink p h) ∧
      ".".toList ∉ split '/' (resolveRelativeLink p h) ∧
      "..".toList ∉ split '/' (resolveRelativeLink p h)) ∧
    resolveRelativeLink "guide/setup".toList ".md".toList = "guide/".toList ∧
    resolveRelativeLink "guide/setup".toList "..md".toList = "guide/.".toList ∧
    resolveRelativeLink "guide/setup".toList "...md".toList = "guide/..".toList := by
  refine ⟨?_, by decide, by decide, by decide⟩
  intro h
  have h1 := (h "guide/setup".toList ".md".toList (by decide) (by decide) (by decide)
    (by decide)).2.2.1
  revert h1
  decide

/-- C19 (amended): for every current document path and every href that is not
returned unchanged, the result of `resolveRelativeLink` is non-empty, does not
begin with `/`, and all its `/`-segments except possibly the last are non-empty
and neither `.` nor `..`.  When the last segment accumulated by the loop is not
`.md`, `..md` or `...md` (in any letter case), the result does not end with `/`
and every segment, the last included, is non-empty and neither `.` nor `..`. -/
theorem resolveRelativeLink_normalised (p h : Str) (hne : h ≠ [])
    (hhash : startsWith h "#".toList = false) (hhttp : startsWith h "http".toList = false)
    (hslash : startsWith h "/".toList = false) :
    resolveRelativeLink p h ≠ [] ∧
    startsWith (resolveRelativeLink p h) "/".toList = false ∧
    (∀ seg ∈ (split '/' (resolveRelativeLink p h)).dropLast, PlainSegment seg) ∧
    ((∀ y suf, (resolveSegments p h).getLast? = some y → suf ∈ mdSuffixes →
        y ≠ suf ∧ y ≠ ".".toList ++ suf ∧ y ≠ "..".toList ++ suf) →
      endsWith (resolveRelativeLink p h) "/".toList = false ∧
      ∀ seg ∈ split '/' (resolveRelativeLink p h), PlainSegment seg) := by
  obtain ⟨init, z, hinit, hz, hiz, hr, hbad⟩ :=
    resolveRelativeLink_shape p h (rewritable_of_parts h hne hhash hhttp hslash)
  rw [hr, split_join_concat init z hinit hz, List.dropLast_concat]
  refine ⟨?_, startsWith_slash_of_head _ (head?_join_concat_ne_slash init z hinit hz),
    hinit, ?_⟩
  · by_cases hi : init = []
    · rw [hi]
      exact hiz hi
    · rw [join_concat _ init z hi]
      simp
  · intro hexc
    have hzp : PlainSegment z := by
      by_contra hn
      obtain ⟨suf, hsuf, hlast⟩ := hbad hn
      obtain ⟨h1, h2, h3⟩ := hexc _ suf hlast hsuf
      rcases not_plain_cases z hz hn with e | e | e
      · exact h1 (by rw [e]; rfl)
      · exact h2 (by rw [e])
      · exact h3 (by rw [e])
    constructor
    · cases hends : endsWith (join "/".toList (init ++ [z])) "/".toList with
      | false => rfl
      | true =>
        rw [endsWith_slash_iff, getLast?_join_concat init z hzp.1] at hends
        exact absurd (List.mem_of_mem_getLast? hends) hz
    · intro seg hs
      rcases List.mem_append.mp hs with hs | hs
      · exact hinit seg hs
      · rw [List.mem_singleton] at hs
        rw [hs]
        exact hzp

/-- C19 (witness): from `guide/setup`, the href `../api/./intro.md` resolves to
`api/intro`: the last accumulated segment is `intro.md`, and the result is a
normalised path. -/
theorem resolveRelativeLink_normalised_witness :
    resolveRelativeLink "guide/setup".toList "../api/./intro.md".toList ≠ [] ∧
    startsWith (resolveRelativeLink "guide/setup".toList "../api/./intro.md".toList)
      "/".toList = false ∧
    (∀ seg ∈ (split '/'
        (resolveRelativeLink "guide/setup".toList "../api/./intro.md".toList)).dropLast,
      PlainSegment seg) ∧
    endsWith (resolveRelativeLink "guide/setup".toList "../api/./intro.md".toList)
      "/".toList = false ∧
    ∀ seg ∈ split '/' (resolveRelativeLink "guide/setup".toList "../api/./intro.md".toList),
      PlainSegment seg := by
  have h := resolveRelativeLink_normalised "guide/setup".toList "../api/./intro.md".toList
    (by decide) (by decide) (by decide) (by decide)
  refine ⟨h.1, h.2.1, h.2.2.1, h.2.2.2 ?_⟩
  intro y suf hy hsuf
  have e : (resolveSegments "guide/setup".toList "../api/./intro.md".toList).getLast?
      = some "intro.md".toList := by decide
  rw [e] at hy
  have hy' : "intro.md".toList = y := Option.some.inj hy
  subst hy'
  simp only [mdSuffixes, List.mem_cons, List.mem_singleton, List.not_mem_nil, or_false] at hsuf
  rcases hsuf with rfl | rfl | rfl | rfl <;> decide

/-! ## Decoding the address written by a same-source listener (C18) -/

/-- C18 (counterexample): the address written by the same-source listener does
not always decode to the resolved path: in source `foo`, from `guide/setup`,
the href `.md` resolves to `guide/`, the listener writes `/s/foo/guide/` (a
string the browser reads back unchanged), and that decodes to the docPath
`guide`, not `guide/`. -/
theorem sameSource_round_trip_fails :
    (¬ ∀ (sourceId docPath href hash : Str), sourceId ≠ [] → '/' ∉ sourceId →
      anchorHandler (some ⟨some sourceId, some docPath⟩) href = LinkHandler.sameSource hash →
      hash = "/s/".toList ++ sourceId ++ "/".toList ++ resolveRelativeLink docPath href ∧
      decode hash = Route.source sourceId (resolveRelativeLink docPath href)) ∧
    anchorHandler (some ⟨some "foo".toList, some "guide/setup".toList⟩) ".md".toList
      = LinkHandler.sameSource "/s/foo/guide/".toList ∧
    (∀ c ∈ "/s/foo/guide/".toList, isFragmentSafe c = true) ∧
    resolveRelativeLink "guide/setup".toList ".md".toList = "guide/".toList ∧
    decode "/s/foo/guide/".toList = Route.source "foo".toList "guide".toList := by
  refine ⟨?_, by decide, by decide, by decide, by decide⟩
  intro h
  have h1 := (h "foo".toList "guide/setup".toList ".md".toList "/s/foo/guide/".toList
    (by decide) (by decide) (by decide)).2
  revert h1
  decide

/-- What it means for `anchorHandler` to add the same-source listener. -/
theorem anchorHandler_sameSource (sourceId docPath href hash : Str)
    (h : anchorHandler (some ⟨some sourceId, some docPath⟩) href
      = LinkHandler.sameSource hash) :
    (href.isEmpty || startsWith href "#".toList || startsWith href "http".toList
      || startsWith href "/".toList) = false ∧
    hash = "/s/".toList ++ sourceId ++ "/".toList
      ++ resolveRelativeLink (orElse docPath DEFAULT_PATH) href := by
  have hb : orDefault ((some ⟨some sourceId, some docPath⟩ : Option Context).bind
      (fun c => c.docPath)) DEFAULT_PATH = orElse docPath DEFAULT_PATH := rfl
  have hsid : orDefault ((some ⟨some sourceId, some docPath⟩ : Option Context).bind
      (fun c => c.sourceId)) [] = sourceId := orElse_nil_right sourceId
  simp only [anchorHandler, hb, hsid] at h
  split_ifs at h with h1 h2 h3
  · have hh := LinkHandler.sameSource.inj h
    refine ⟨?_, hh.symm⟩
    simp only [Bool.and_eq_true, Bool.not_eq_true', decide_eq_true_eq] at h2 h3
    cases hg : (href.isEmpty || startsWith href "#".toList || startsWith href "http".toList
      || startsWith href "/".toList) with
    | false => rfl
    | true =>
      have hres : resolveRelativeLink (orElse docPath DEFAULT_PATH) href = href := by
        unfold resolveRelativeLink
        rw [hg]
        simp
      exact absurd hres h3.2

theorem isFragmentSafe_not_whitespace (c : Char) (h : isFragmentSafe c = true) :
    isJsWhitespace c = false := by
  simp only [isFragmentSafe, Bool.and_eq_true, decide_eq_true_eq] at h
  simp only [isJsWhitespace, Bool.or_eq_false_iff, Bool.and_eq_false_iff,
    decide_eq_false_iff_not]
  omega

/-- C18 (amended): for a source id that is non-empty, without `/` and made of
characters a location hash can hold, every document path and every href for
which `anchorHandler` adds the same-source listener, the listener writes
`/s/<sourceId>/<resolved>` with `resolved` the result of `resolveRelativeLink`
on `docPath || "index"` and the href.  When `resolved` is made of characters
the browser stores unchanged in the location hash (printable ASCII other than
the space, the double quote, `<`, `>` and the grave accent) and does not end
with `/`, the whole address is made of such characters, so it reads back as
written, and it decodes to exactly the document route `(sourceId, resolved)`. -/
theorem sameSource_round_trip (sourceId docPath href hash : Str)
    (hsid : sourceId ≠ []) (hslash : '/' ∉ sourceId)
    (hsafeId : ∀ c ∈ sourceId, isFragmentSafe c = true)
    (hbound : anchorHandler (some ⟨some sourceId, some docPath⟩) href
      = LinkHandler.sameSource hash)
    (hsafe : ∀ c ∈ resolveRelativeLink (orElse docPath DEFAULT_PATH) href,
      isFragmentSafe c = true)
    (hlast : (resolveRelativeLink (orElse docPath DEFAULT_PATH) href).getLast? ≠ some '/') :
    hash = "/s/".toList ++ sourceId ++ "/".toList
      ++ resolveRelativeLink (orElse docPath DEFAULT_PATH) href ∧
    (∀ c ∈ hash, isFragmentSafe c = true) ∧
    decode hash
      = Route.source sourceId (resolveRelativeLink (orElse docPath DEFAULT_PATH) href) := by
  obtain ⟨hc, hhash⟩ := anchorHandler_sameSource sourceId docPath href hash hbound
  refine ⟨hhash, ?_, ?_⟩
  · intro c hm
    rw [hhash] at hm
    simp only [List.mem_append] at hm
    rcases hm with ((hm | hm) | hm) | hm
    · revert c
      decide
    · exact hsafeId c hm
    · revert c
      decide
    · exact hsafe c hm
  obtain ⟨init, z, hinit, hz, hiz, hr, -⟩ :=
    resolveRelativeLink_shape (orElse docPath DEFAULT_PATH) href hc
  rw [hhash]
  rw [hr] at hlast hsafe ⊢
  have hz0 : z ≠ [] := by
    intro e
    have hi : init ≠ [] := fun hi => hiz hi e
    rw [e] at hlast
    exact hlast (getLast?_join_concat_nil init hi)
  obtain ⟨r0, c, hrc⟩ : ∃ r0 c, join "/".toList (init ++ [z]) = r0 ++ [c] := by
    rcases List.eq_nil_or_concat (join "/".toList (init ++ [z])) with e | ⟨r0, c, e⟩
    · exact absurd e (join_concat_ne_nil _ init z hz0)
    · exact ⟨r0, c, by simpa using e⟩
  have hc1 : c ≠ '/' := by
    intro e
    apply hlast
    rw [hrc, e]
    exact List.getLast?_concat r0
  have hc2 : isJsWhitespace c = false :=
    isFragmentSafe_not_whitespace c (hsafe c (by rw [hrc]; simp))
  have ha : "/s/".toList ++ sourceId ++ "/".toList ++ join "/".toList (init ++ [z])
      = '/' :: 's' :: (('/' :: (sourceId ++ '/' :: r0)) ++ [c]) := by
    rw [hrc]
    simp
  have hp : getPathFromHash ('#' ::
      ("/s/".toList ++ sourceId ++ "/".toList ++ join "/".toList (init ++ [z])))
      = "s".toList ++ '/' :: (sourceId ++ '/' :: join "/".toList (init ++ [z])) := by
    unfold getPathFromHash
    rw [List.drop_one, List.tail_cons, ha,
      (normalizeAddress_source ('/' :: (sourceId ++ '/' :: r0)) c hc1 hc2).1, hrc]
    simp
  have hsegs : filterBoolean (split '/'
      ("s".toList ++ '/' :: (sourceId ++ '/' :: join "/".toList (init ++ [z]))))
      = "s".toList :: sourceId :: (init ++ [z]) := by
    rw [split_append_sep, split_append_sep, split_of_not_mem '/' "s".toList (by decide),
      split_of_not_mem '/' sourceId hslash, split_join_concat init z hinit hz]
    exact filterBoolean_eq_self _ (by
      intro s hs
      simp only [List.singleton_append, List.mem_cons, List.mem_append,
        List.mem_singleton, List.not_mem_nil, or_false] at hs
      rcases hs with e | e | e | e
      · rw [e]
        decide
      · rw [e]
        exact hsid
      · exact (hinit s e).1
      · rw [e]
        exact hz0)
  unfold decode
  rw [hp, (parseRoute_of_segments _).2.2 _ _ _ hsegs]
  simp

/-- C18 (witness): in source `foo`, from `guide/setup`, the href `../intro.md`
gets the same-source listener, which writes `/s/foo/intro`; this address reads
back unchanged and decodes to the document route `(foo, intro)`. -/
theorem sameSource_round_trip_witness :
    "/s/foo/intro".toList = "/s/".toList ++ "foo".toList ++ "/".toList
      ++ resolveRelativeLink (orElse "guide/setup".toList DEFAULT_PATH) "../intro.md".toList ∧
    (∀ c ∈ "/s/foo/intro".toList, isFragmentSafe c = true) ∧
    decode "/s/foo/intro".toList
      = Route.source "foo".toList
          (resolveRelativeLink (orElse "guide/setup".toList DEFAULT_PATH)
            "../intro.md".toList) :=
  sameSource_round_trip "foo".toList "guide/setup".toList "../intro.md".toList
    "/s/foo/intro".toList (by decide) (by decide) (by decide) (by decide) (by decide)
    (by decide)

end CampdDocs
